import Mathlib

/-!
Verification development for the smart-tutor-system repository.

The file shallowly embeds the algorithmic core of the repository:

* `Module1Bayesian` — the table-form emotion estimator of
  `src/Module1_Bayesian.py` (CPT lookup, argmax);
* `Module4RF` — the student simulator, state discretizer and Q-table
  persistence of `src/Module4_RF.py`;
* `BayesModel` — the continuous Bayesian estimator of `src/bayes_model.py`;
* `Module3Planning` — the planning-graph builder, GraphPlan extractor,
  plan simulator and POP planner of `src/Module3_Planning.py`.

Python sets of strings are modelled as insertion-ordered duplicate-free
lists; machine floats are modelled as rationals where the code only does
field arithmetic and comparisons, and as reals where the code evaluates
the Gaussian density.  Gaussian noise draws are modelled as an arbitrary
stream of rationals supplied to the simulator.
-/

namespace SmartTutor

/-- First index of the maximum of a list, scanning left to right with a
running best value, as `np.argmax` does.  `best`/`bestVal` hold the index
and value of the best element seen so far, `i` the index of the head. -/
def argmaxAux {α : Type} [LinearOrder α] (best : ℕ) (bestVal : α) (i : ℕ) :
    List α → ℕ
  | [] => best
  | v :: rest =>
      if bestVal < v then argmaxAux i v (i + 1) rest
      else argmaxAux best bestVal (i + 1) rest

/-- Index of the first occurrence of the maximum of a list (0 on `[]`),
the behaviour of `np.argmax`. -/
def listArgmax {α : Type} [LinearOrder α] : List α → ℕ
  | [] => 0
  | v :: rest => argmaxAux 0 v 1 rest

namespace Module1Bayesian

/-- Emotion labels of `src/Module1_Bayesian.py`, in row order of the CPT. -/
def EMOTION_STATES : List String :=
  ["highly_confident", "confident", "confused", "highly_confused", "frustrated"]

/-- Conditional probability table of `src/Module1_Bayesian.py` (5 emotion
rows × 18 evidence columns). -/
def CPD : List (List ℚ) :=
  [[0.95, 0.40, 0.85, 0.30, 0.70, 0.20, 0.80, 0.30, 0.75, 0.25, 0.60, 0.15,
    0.60, 0.10, 0.40, 0.05, 0.10, 0.01],
   [0.05, 0.30, 0.10, 0.35, 0.15, 0.30, 0.15, 0.40, 0.20, 0.40, 0.25, 0.30,
    0.25, 0.30, 0.40, 0.25, 0.40, 0.05],
   [0.00, 0.20, 0.05, 0.25, 0.10, 0.30, 0.05, 0.20, 0.05, 0.25, 0.10, 0.30,
    0.10, 0.40, 0.15, 0.50, 0.30, 0.15],
   [0.00, 0.10, 0.00, 0.08, 0.05, 0.10, 0.00, 0.05, 0.00, 0.08, 0.05, 0.15,
    0.05, 0.15, 0.05, 0.15, 0.15, 0.35],
   [0.00, 0.00, 0.00, 0.02, 0.00, 0.10, 0.00, 0.05, 0.00, 0.02, 0.00, 0.10,
    0.00, 0.05, 0.00, 0.05, 0.05, 0.44]]

/-- Correctness evidence index: `C = 0 if correct else 1`. -/
def corrIdx (correct : Bool) : ℕ := if correct then 0 else 1

/-- Time-bucket index: `T = 0 if time_taken < 10 else (1 if time_taken < 30
else 2)`. -/
def timeIdx (time_taken : ℚ) : ℕ :=
  if time_taken < 10 then 0 else if time_taken < 30 then 1 else 2

/-- Feedback index: the dictionary lookup
`{"Too Easy": 0, "Just Right": 1, "Too Hard": 2}.get(feedback, 1)`. -/
def feedbackIdx (feedback : String) : ℕ :=
  if feedback = "Too Easy" then 0
  else if feedback = "Just Right" then 1
  else if feedback = "Too Hard" then 2
  else 1

/-- Column index into the CPT, `C + 2*T + 6*F` as computed in
`evaluate_emotional_status_stepwise`. -/
def columnIndex (correct : Bool) (time_taken : ℚ) (feedback : String) : ℕ :=
  corrIdx correct + 2 * timeIdx time_taken + 6 * feedbackIdx feedback

/-- The step-wise evaluator of `src/Module1_Bayesian.py`: extract the
CPT column at `columnIndex`, take the argmax row, return its label. -/
def evaluate_emotional_status_stepwise (correct : Bool) (time_taken : ℚ)
    (feedback : String) : String :=
  let index := columnIndex correct time_taken feedback
  let posterior := CPD.map (fun row => row.getD index 0)
  EMOTION_STATES.getD (listArgmax posterior) ""

end Module1Bayesian

namespace Module4RF

/-- Python `int()` on a rational value: truncation toward zero. -/
def pyInt (q : ℚ) : ℤ := if q < 0 then -⌊-q⌋ else ⌊q⌋

/-- The `np.clip(x, lo, hi)` operation on one scalar. -/
def npClip (x lo hi : ℚ) : ℚ := min (max x lo) hi

/-- One component of `QLearningTutor.discretize_state`:
`int(np.clip(x, 0.0, 0.9999) * b)`. -/
def discretize1 (b : ℕ) (x : ℚ) : ℤ := pyInt (npClip x 0 (9999 / 10000) * b)

/-- `QLearningTutor.discretize_state`, mapping the continuous student
state to an integer bucket triple. -/
def discretize_state (b : ℕ) (mastery frustration engagement : ℚ) :
    ℤ × ℤ × ℤ :=
  (discretize1 b mastery, discretize1 b frustration, discretize1 b engagement)

/-- Continuous student state held by `StudentSimulator`. -/
structure StudentState where
  mastery_level : ℚ
  frustration : ℚ
  engagement : ℚ
  deriving DecidableEq, Repr

/-- Initial student state set in `StudentSimulator.__init__`. -/
def initialStudent : StudentState :=
  { mastery_level := 3 / 10, frustration := 2 / 10, engagement := 7 / 10 }

/-- `StudentSimulator.respond(action, difficulty)`.  The Gaussian draws of
`np.random.normal(scale=0.01)` are supplied as a stream `noise`; the k-th
call of `noise()` inside one `respond` reads `noise k`.  Returns the
mutated state and the response label. -/
def respond (st : StudentState) (action : String) (difficulty : ℚ)
    (noise : ℕ → ℚ) : StudentState × String :=
  if action = "increase_difficulty" then
    if difficulty > st.mastery_level + 2 / 10 then
      ({ st with
          frustration := min 1 (st.frustration + 12 / 100 + noise 0),
          engagement := max 0 (st.engagement - 8 / 100 + noise 1) },
        "frustrated")
    else
      ({ st with
          mastery_level := min 1 (st.mastery_level + 5 / 100 + noise 0),
          engagement := min 1 (st.engagement + 2 / 100 + noise 1) },
        "success")
  else if action = "decrease_difficulty" then
    if difficulty < st.mastery_level - 2 / 10 then
      ({ st with
          engagement := max 0 (st.engagement - 6 / 100 + noise 0) },
        "bored")
    else
      ({ st with
          mastery_level := min 1 (st.mastery_level + 3 / 100 + noise 0),
          frustration := max 0 (st.frustration - 5 / 100 + noise 1) },
        "success")
  else if action = "switch_style" then
    ({ st with
        engagement := min 1 (st.engagement + 10 / 100 + noise 0),
        frustration := max 0 (st.frustration - 5 / 100 + noise 1) },
      "engaged")
  else if action = "offer_revision" then
    ({ st with
        mastery_level := min 1 (st.mastery_level + 2 / 100 + noise 0),
        frustration := max 0 (st.frustration - 10 / 100 + noise 1) },
      "improved")
  else (st, "neutral")

/-- Membership of a student state in the unit cube `[0,1]^3`. -/
def inUnitCube (st : StudentState) : Prop :=
  0 ≤ st.mastery_level ∧ st.mastery_level ≤ 1 ∧
  0 ≤ st.frustration ∧ st.frustration ≤ 1 ∧
  0 ≤ st.engagement ∧ st.engagement ≤ 1

lemma npClip_nonneg (x c : ℚ) (hc : 0 ≤ c) : 0 ≤ npClip x 0 c :=
  le_min (le_max_right x 0) hc

lemma npClip_le (x c : ℚ) : npClip x 0 c ≤ c := min_le_right _ _

lemma discretize1_eq_floor (b : ℕ) (x : ℚ) :
    discretize1 b x = ⌊npClip x 0 (9999 / 10000) * b⌋ := by
  have h0 : (0 : ℚ) ≤ npClip x 0 (9999 / 10000) * b :=
    mul_nonneg (npClip_nonneg x _ (by norm_num)) (by positivity)
  unfold discretize1 pyInt
  rw [if_neg (not_lt.mpr h0)]

lemma discretize1_nonneg (b : ℕ) (x : ℚ) : 0 ≤ discretize1 b x := by
  rw [discretize1_eq_floor]
  exact Int.floor_nonneg.mpr
    (mul_nonneg (npClip_nonneg x _ (by norm_num)) (by positivity))

lemma discretize1_lt (b : ℕ) (hb : 1 ≤ b) (x : ℚ) : discretize1 b x < b := by
  rw [discretize1_eq_floor]
  have hbpos : (0 : ℚ) < b := by exact_mod_cast Nat.pos_of_ne_zero (by omega)
  have h1 : npClip x 0 (9999 / 10000) * b ≤ (9999 / 10000 : ℚ) * b :=
    mul_le_mul_of_nonneg_right (npClip_le x _) (le_of_lt hbpos)
  have h2 : (9999 / 10000 : ℚ) * b < 1 * b :=
    mul_lt_mul_of_pos_right (by norm_num) hbpos
  exact Int.floor_lt.mpr (by push_cast; linarith)

lemma discretize1_requant (b : ℕ) (hb : 1 ≤ b) (x : ℚ) (k : ℤ)
    (h : discretize1 b x = k) : discretize1 b (((k : ℚ) + 1 / 2) / b) = k := by
  have hbpos : (0 : ℚ) < b := by exact_mod_cast Nat.pos_of_ne_zero (by omega)
  have hk0 : 0 ≤ k := h ▸ discretize1_nonneg b x
  have hkle : (k : ℚ) ≤ npClip x 0 (9999 / 10000) * b := by
    rw [← h, discretize1_eq_floor]; exact Int.floor_le _
  have hkc : (k : ℚ) ≤ (9999 / 10000 : ℚ) * b :=
    le_trans hkle (mul_le_mul_of_nonneg_right (npClip_le x _) (le_of_lt hbpos))
  set y : ℚ := ((k : ℚ) + 1 / 2) / b with hy
  have hy0 : 0 ≤ y := by
    apply div_nonneg _ (le_of_lt hbpos)
    have : (0 : ℚ) ≤ (k : ℚ) := by exact_mod_cast hk0
    linarith
  have hmax : max y 0 = y := max_eq_left hy0
  have hyb : y * b = (k : ℚ) + 1 / 2 := div_mul_cancel₀ _ (ne_of_gt hbpos)
  rcases le_or_lt y (9999 / 10000 : ℚ) with hyc | hyc
  · rw [discretize1_eq_floor]
    unfold npClip
    rw [hmax, min_eq_left hyc, hyb, add_comm, Int.floor_add_int]
    norm_num
  · rw [discretize1_eq_floor]
    unfold npClip
    rw [hmax, min_eq_right (le_of_lt hyc)]
    refine Int.floor_eq_iff.mpr ⟨hkc, ?_⟩
    have : (9999 / 10000 : ℚ) * b < y * b := mul_lt_mul_of_pos_right hyc hbpos
    rw [hyb] at this
    linarith

/-- Decimal digit character, `chr(48 + d)`. -/
def digitChar (d : ℕ) : Char := Char.ofNat (48 + d)

/-- Python `str(n)` for a natural number, as a character list. -/
def natRenderL (n : ℕ) : List Char :=
  if n = 0 then ['0'] else ((Nat.digits 10 n).reverse).map digitChar

/-- Python `str(i)` for an integer, as a character list. -/
def intRenderL (i : ℤ) : List Char :=
  if i < 0 then '-' :: natRenderL i.natAbs else natRenderL i.natAbs

/-- Python `str((m, f, e))` for a 3-tuple of integers: the exact
`"(m, f, e)"` layout used as JSON key by `save_q_table`. -/
def keyRender (k : ℤ × ℤ × ℤ) : List Char :=
  '(' :: ((intRenderL k.1 ++
    (',' :: ' ' :: (intRenderL k.2.1 ++
      (',' :: ' ' :: intRenderL k.2.2)))) ++ [')'])

/-- Python `s.strip(sep)`: remove leading and trailing characters that
belong to `sep`. -/
def stripChars (sep : List Char) (s : List Char) : List Char :=
  ((s.dropWhile (fun c => decide (c ∈ sep))).reverse.dropWhile
    (fun c => decide (c ∈ sep))).reverse

/-- Python `s.split(",")`: split at every comma, keeping empty pieces. -/
def splitOnComma : List Char → List (List Char)
  | [] => [[]]
  | c :: rest =>
      if c = ',' then [] :: splitOnComma rest
      else
        match splitOnComma rest with
        | [] => [[c]]
        | g :: gs => (c :: g) :: gs

/-- Decimal digit test on a character. -/
def isDigitCh (c : Char) : Bool := 48 ≤ c.toNat && c.toNat ≤ 57

/-- Numeric value of a digit character. -/
def digitVal (c : Char) : ℕ := c.toNat - 48

/-- Python `int(s)` on a string of digits (no sign): `None` models the
`ValueError` of a malformed literal. -/
def parseNatL (cs : List Char) : Option ℕ :=
  if cs.isEmpty then none
  else if cs.all isDigitCh then
    some (cs.foldl (fun acc c => acc * 10 + digitVal c) 0)
  else none

/-- Python `int(s)` with an optional sign. -/
def parseIntL (cs : List Char) : Option ℤ :=
  match cs with
  | c :: rest =>
      if c = '-' then (parseNatL rest).map (fun n : ℕ => -(n : ℤ))
      else if c = '+' then (parseNatL rest).map (fun n : ℕ => (n : ℤ))
      else (parseNatL (c :: rest)).map (fun n : ℕ => (n : ℤ))
  | [] => none

/-- The `int(x.strip())` step of `load_q_table`. -/
def pyParseInt (cs : List Char) : Option ℤ := parseIntL (stripChars [' '] cs)

/-- Key deserialization of `load_q_table`:
`tuple(int(x.strip()) for x in k_str.strip("() ").split(","))`, keeping the
entry only when the split has exactly three pieces and every piece parses
(a parse failure raises in Python and the entry is skipped). -/
def keyParse (s : List Char) : Option (ℤ × ℤ × ℤ) :=
  match splitOnComma (stripChars ['(', ')', ' '] s) with
  | [x, y, z] =>
      match pyParseInt x, pyParseInt y, pyParseInt z with
      | some a, some b, some c => some (a, b, c)
      | _, _, _ => none
  | _ => none

/-- `QLearningTutor.save_q_table`: serialize the Q-table as a mapping
keyed by `str(state_tuple)`.  The JSON layer transports string keys and
float values verbatim, so it is modelled as the identity on them. -/
def save_q_table (q : List ((ℤ × ℤ × ℤ) × List (String × ℚ))) :
    List (List Char × List (String × ℚ)) :=
  q.map (fun kv => (keyRender kv.1, kv.2))

/-- `QLearningTutor.load_q_table`: parse every serialized key back into an
integer triple, skipping entries that fail to parse or do not have exactly
three components. -/
def load_q_table (raw : List (List Char × List (String × ℚ))) :
    List ((ℤ × ℤ × ℤ) × List (String × ℚ)) :=
  raw.foldl (fun acc kv =>
    match keyParse kv.1 with
    | some k => acc ++ [(k, kv.2)]
    | none => acc) []

lemma isDigitCh_digitChar (d : ℕ) (hd : d < 10) :
    isDigitCh (digitChar d) = true := by
  interval_cases d <;> decide

lemma digitVal_digitChar (d : ℕ) (hd : d < 10) :
    digitVal (digitChar d) = d := by
  interval_cases d <;> decide

lemma natRenderL_ne_nil (n : ℕ) : natRenderL n ≠ [] := by
  unfold natRenderL
  split_ifs with h
  · simp
  · simp [Nat.digits_ne_nil_iff_ne_zero.mpr h]

lemma natRenderL_digits (n : ℕ) : ∀ c ∈ natRenderL n, isDigitCh c = true := by
  intro c hc
  unfold natRenderL at hc
  split_ifs at hc with h
  · rw [List.mem_singleton] at hc
    subst hc
    decide
  · simp only [List.mem_map, List.mem_reverse] at hc
    obtain ⟨d, hd, rfl⟩ := hc
    exact isDigitCh_digitChar d (Nat.digits_lt_base (by norm_num) hd)

lemma intRenderL_ne_nil (i : ℤ) : intRenderL i ≠ [] := by
  unfold intRenderL
  split_ifs
  · simp
  · exact natRenderL_ne_nil _

lemma intRenderL_chars (i : ℤ) :
    ∀ c ∈ intRenderL i, isDigitCh c = true ∨ c = '-' := by
  intro c hc
  unfold intRenderL at hc
  split_ifs at hc
  · rw [List.mem_cons] at hc
    rcases hc with hc | hc
    · exact Or.inr hc
    · exact Or.inl (natRenderL_digits _ c hc)
  · exact Or.inl (natRenderL_digits _ c hc)

lemma intRenderL_reverse_head (i : ℤ) :
    ∃ c tl, (intRenderL i).reverse = c :: tl ∧ isDigitCh c = true := by
  unfold intRenderL
  split_ifs
  · obtain ⟨c, tl, hct⟩ := List.exists_cons_of_ne_nil
      (fun h => natRenderL_ne_nil i.natAbs (List.reverse_eq_nil_iff.mp h) :
        (natRenderL i.natAbs).reverse ≠ [])
    refine ⟨c, tl ++ ['-'], ?_, ?_⟩
    · simp [hct]
    · exact natRenderL_digits _ c (by
        have : c ∈ (natRenderL i.natAbs).reverse := by simp [hct]
        simpa using this)
  · obtain ⟨c, tl, hct⟩ := List.exists_cons_of_ne_nil
      (fun h => natRenderL_ne_nil i.natAbs (List.reverse_eq_nil_iff.mp h) :
        (natRenderL i.natAbs).reverse ≠ [])
    refine ⟨c, tl, hct, ?_⟩
    exact natRenderL_digits _ c (by
      have : c ∈ (natRenderL i.natAbs).reverse := by simp [hct]
      simpa using this)

lemma parseNatFold (L : List ℕ) (hL : ∀ d ∈ L, d < 10) (acc : ℕ) :
    ((L.reverse.map digitChar).foldl (fun a c => a * 10 + digitVal c) acc)
      = acc * 10 ^ L.length + Nat.ofDigits 10 L := by
  induction L generalizing acc with
  | nil => simp
  | cons d L ih =>
      have hd : d < 10 := hL d (List.mem_cons_self d L)
      have hL' : ∀ x ∈ L, x < 10 := fun x hx => hL x (List.mem_cons_of_mem d hx)
      simp only [List.reverse_cons, List.map_append, List.foldl_append,
        List.map_cons, List.map_nil, List.foldl_cons, List.foldl_nil]
      rw [ih hL' acc, digitVal_digitChar d hd, Nat.ofDigits_cons,
        List.length_cons, pow_succ]
      ring

lemma parseNatL_natRenderL (n : ℕ) : parseNatL (natRenderL n) = some n := by
  by_cases h : n = 0
  · subst h; decide
  · have hnn : natRenderL n = ((Nat.digits 10 n).reverse).map digitChar := by
      simp [natRenderL, h]
    have hne : natRenderL n ≠ [] := natRenderL_ne_nil n
    have hall : (natRenderL n).all isDigitCh = true :=
      List.all_eq_true.mpr (fun c hc => natRenderL_digits n c hc)
    unfold parseNatL
    rw [if_neg (by simpa [List.isEmpty_iff] using hne), if_pos hall]
    rw [hnn, parseNatFold (Nat.digits 10 n)
      (fun d hd => Nat.digits_lt_base (by norm_num) hd) 0]
    simp [Nat.ofDigits_digits]

lemma parseIntL_intRenderL (i : ℤ) : parseIntL (intRenderL i) = some i := by
  rcases lt_or_le i 0 with hi | hi
  · have h1 : intRenderL i = '-' :: natRenderL i.natAbs := by
      unfold intRenderL
      rw [if_pos hi]
    rw [h1]
    simp only [parseIntL]
    rw [ite_true, parseNatL_natRenderL, Option.map_some']
    congr 1
    omega
  · have h1 : intRenderL i = natRenderL i.natAbs := by
      unfold intRenderL
      rw [if_neg (not_lt.mpr hi)]
    obtain ⟨c, tl, hct⟩ := List.exists_cons_of_ne_nil (natRenderL_ne_nil i.natAbs)
    have hcd : isDigitCh c = true :=
      natRenderL_digits i.natAbs c (by rw [hct]; exact List.mem_cons_self c tl)
    have hcm : c ≠ '-' := by
      intro hc; subst hc; exact absurd hcd (by decide)
    have hcp : c ≠ '+' := by
      intro hc; subst hc; exact absurd hcd (by decide)
    rw [h1, hct]
    simp only [parseIntL]
    rw [if_neg hcm, if_neg hcp, ← hct, parseNatL_natRenderL, Option.map_some']
    congr 1
    omega

lemma intRenderL_not_sep3 (i : ℤ) : ∀ c ∈ intRenderL i,
    decide (c ∈ (['(', ')', ' '] : List Char)) = false := by
  intro c hc
  rw [decide_eq_false_iff_not]
  intro hm
  simp only [List.mem_cons, List.not_mem_nil, or_false] at hm
  rcases intRenderL_chars i c hc with h | h
  · rcases hm with rfl | rfl | rfl <;> exact absurd h (by decide)
  · subst h
    rcases hm with h | h | h <;> exact absurd h (by decide)

lemma intRenderL_not_space (i : ℤ) : ∀ c ∈ intRenderL i,
    decide (c ∈ ([' '] : List Char)) = false := by
  intro c hc
  rw [decide_eq_false_iff_not]
  intro hm
  simp only [List.mem_cons, List.not_mem_nil, or_false] at hm
  rcases intRenderL_chars i c hc with h | h
  · subst hm; exact absurd h (by decide)
  · subst h; exact absurd hm (by decide)

lemma intRenderL_no_comma (i : ℤ) : ∀ c ∈ intRenderL i, c ≠ ',' := by
  intro c hc hc'
  rcases intRenderL_chars i c hc with h | h
  · subst hc'; exact absurd h (by decide)
  · subst hc'; exact absurd h (by decide)

lemma dropWhile_sep_append (sep pre s : List Char)
    (hpre : ∀ c ∈ pre, decide (c ∈ sep) = true)
    (c : Char) (tl : List Char) (hs : s = c :: tl)
    (hc : decide (c ∈ sep) = false) :
    List.dropWhile (fun x => decide (x ∈ sep)) (pre ++ s) = s := by
  induction pre with
  | nil =>
      rw [List.nil_append, hs]
      exact List.dropWhile_cons_of_neg (by simp [hc])
  | cons a pre ih =>
      simp only [List.cons_append, List.dropWhile_cons,
        hpre a (List.mem_cons_self a pre), if_true]
      exact ih (fun x hx => hpre x (List.mem_cons_of_mem a hx))

lemma stripChars_of_ends (sep s : List Char) (c c' : Char) (tl tl' : List Char)
    (h1 : s = c :: tl) (h2 : s.reverse = c' :: tl')
    (hc : decide (c ∈ sep) = false) (hc' : decide (c' ∈ sep) = false) :
    stripChars sep s = s := by
  unfold stripChars
  have e1 : List.dropWhile (fun x => decide (x ∈ sep)) s = s := by
    rw [h1]; exact List.dropWhile_cons_of_neg (by simp [hc])
  rw [e1]
  have e2 : List.dropWhile (fun x => decide (x ∈ sep)) s.reverse = s.reverse := by
    rw [h2]; exact List.dropWhile_cons_of_neg (by simp [hc'])
  rw [e2, List.reverse_reverse]

lemma stripChars_key (Mid : List Char) (c c' : Char) (tl tl' : List Char)
    (h1 : Mid = c :: tl) (h2 : Mid.reverse = c' :: tl')
    (hc : decide (c ∈ (['(', ')', ' '] : List Char)) = false)
    (hc' : decide (c' ∈ (['(', ')', ' '] : List Char)) = false) :
    stripChars ['(', ')', ' '] ('(' :: (Mid ++ [')'])) = Mid := by
  unfold stripChars
  have e1 : List.dropWhile (fun x => decide (x ∈ (['(', ')', ' '] : List Char)))
      ('(' :: (Mid ++ [')'])) = Mid ++ [')'] := by
    rw [show ('(' :: (Mid ++ [')'])) = ['('] ++ (Mid ++ [')']) from rfl]
    exact dropWhile_sep_append _ ['('] _
      (by intro x hx
          simp only [List.mem_singleton] at hx
          subst hx; decide)
      c (tl ++ [')']) (by rw [h1]; rfl) hc
  rw [e1]
  have e2 : (Mid ++ [')']).reverse = ')' :: Mid.reverse := by simp
  rw [e2]
  have e3 : List.dropWhile (fun x => decide (x ∈ (['(', ')', ' '] : List Char)))
      (')' :: Mid.reverse) = Mid.reverse := by
    rw [show (')' :: Mid.reverse) = [')'] ++ Mid.reverse from rfl]
    exact dropWhile_sep_append _ [')'] _
      (by intro x hx
          simp only [List.mem_singleton] at hx
          subst hx; decide)
      c' tl' h2 hc'
  rw [e3, List.reverse_reverse]

lemma splitOnComma_no_comma (s : List Char) (h : ∀ c ∈ s, c ≠ ',') :
    splitOnComma s = [s] := by
  induction s with
  | nil => rfl
  | cons a s ih =>
      simp only [splitOnComma]
      rw [if_neg (h a (List.mem_cons_self a s)),
        ih (fun x hx => h x (List.mem_cons_of_mem a hx))]

lemma splitOnComma_append (A rest : List Char) (h : ∀ c ∈ A, c ≠ ',') :
    splitOnComma (A ++ ',' :: rest) = A :: splitOnComma rest := by
  induction A with
  | nil => simp [splitOnComma]
  | cons a A ih =>
      simp only [List.cons_append, splitOnComma, List.append_eq]
      rw [if_neg (h a (List.mem_cons_self a A)),
        ih (fun x hx => h x (List.mem_cons_of_mem a hx))]

lemma pyParseInt_render (i : ℤ) : pyParseInt (intRenderL i) = some i := by
  unfold pyParseInt
  obtain ⟨c0, tl0, h1⟩ := List.exists_cons_of_ne_nil (intRenderL_ne_nil i)
  obtain ⟨cr, crtl, h2, hcrd⟩ := intRenderL_reverse_head i
  rw [stripChars_of_ends [' '] _ c0 cr tl0 crtl h1 h2
    (intRenderL_not_space i c0 (by rw [h1]; exact List.mem_cons_self c0 tl0))
    (intRenderL_not_space i cr (by
      rw [← List.mem_reverse, h2]; exact List.mem_cons_self cr crtl))]
  exact parseIntL_intRenderL i

lemma pyParseInt_space_render (i : ℤ) :
    pyParseInt (' ' :: intRenderL i) = some i := by
  unfold pyParseInt
  have e0 : stripChars [' '] (' ' :: intRenderL i) =
      stripChars [' '] (intRenderL i) := by
    unfold stripChars
    rw [List.dropWhile_cons_of_pos (by decide)]
  rw [e0]
  obtain ⟨c0, tl0, h1⟩ := List.exists_cons_of_ne_nil (intRenderL_ne_nil i)
  obtain ⟨cr, crtl, h2, hcrd⟩ := intRenderL_reverse_head i
  rw [stripChars_of_ends [' '] _ c0 cr tl0 crtl h1 h2
    (intRenderL_not_space i c0 (by rw [h1]; exact List.mem_cons_self c0 tl0))
    (intRenderL_not_space i cr (by
      rw [← List.mem_reverse, h2]; exact List.mem_cons_self cr crtl))]
  exact parseIntL_intRenderL i

lemma keyParse_keyRender (k : ℤ × ℤ × ℤ) : keyParse (keyRender k) = some k := by
  obtain ⟨a, b, c⟩ := k
  obtain ⟨a0, atl, hA⟩ := List.exists_cons_of_ne_nil (intRenderL_ne_nil a)
  obtain ⟨cr, crtl, hCrev, hcrd⟩ := intRenderL_reverse_head c
  have hMid : intRenderL a ++ (',' :: ' ' :: (intRenderL b ++
      (',' :: ' ' :: intRenderL c))) =
      a0 :: (atl ++ (',' :: ' ' :: (intRenderL b ++
        (',' :: ' ' :: intRenderL c)))) := by
    rw [hA]; rfl
  obtain ⟨tlr, hMidRev⟩ : ∃ tlr, (intRenderL a ++ (',' :: ' ' :: (intRenderL b ++
      (',' :: ' ' :: intRenderL c)))).reverse = cr :: tlr := by
    simp only [List.reverse_append, List.reverse_cons, hCrev, List.cons_append,
      List.append_assoc, List.nil_append]
    exact ⟨_, rfl⟩
  unfold keyParse keyRender
  rw [stripChars_key _ a0 cr _ tlr hMid hMidRev
    (intRenderL_not_sep3 a a0 (by rw [hA]; exact List.mem_cons_self a0 atl))
    (by rw [decide_eq_false_iff_not]
        intro hm
        simp only [List.mem_cons, List.not_mem_nil, or_false] at hm
        rcases hm with rfl | rfl | rfl <;> exact absurd hcrd (by decide))]
  rw [splitOnComma_append _ _ (intRenderL_no_comma a)]
  rw [show (' ' :: (intRenderL b ++ (',' :: ' ' :: intRenderL c))) =
    (' ' :: intRenderL b) ++ (',' :: (' ' :: intRenderL c)) from by simp]
  rw [splitOnComma_append _ _ (by
    intro x hx
    rw [List.mem_cons] at hx
    rcases hx with rfl | hx
    · decide
    · exact intRenderL_no_comma b x hx)]
  rw [splitOnComma_no_comma _ (by
    intro x hx
    rw [List.mem_cons] at hx
    rcases hx with rfl | hx
    · decide
    · exact intRenderL_no_comma c x hx)]
  simp only [pyParseInt_render, pyParseInt_space_render]

lemma load_save_aux (q : List ((ℤ × ℤ × ℤ) × List (String × ℚ)))
    (acc : List ((ℤ × ℤ × ℤ) × List (String × ℚ))) :
    (save_q_table q).foldl (fun acc kv =>
      match keyParse kv.1 with
      | some k => acc ++ [(k, kv.2)]
      | none => acc) acc = acc ++ q := by
  induction q generalizing acc with
  | nil => simp [save_q_table]
  | cons kv q ih =>
      obtain ⟨k, v⟩ := kv
      simp only [save_q_table, List.map_cons, List.foldl_cons]
      rw [show (match keyParse (keyRender k) with
        | some k' => acc ++ [(k', v)]
        | none => acc) = acc ++ [(k, v)] from by rw [keyParse_keyRender]]
      have := ih (acc ++ [(k, v)])
      simp only [save_q_table] at this
      rw [this, List.append_assoc]
      rfl

end Module4RF

namespace BayesModel

/-- Emotion labels of `src/bayes_model.py`, in order. -/
def EMOTION_STATES : List String :=
  ["highly_confident", "confident", "confused", "highly_confused", "frustrated"]

/-- Prior probabilities `P(Emotion)` of `src/bayes_model.py`. -/
def PRIORS : List ℝ := [0.25, 0.30, 0.20, 0.15, 0.10]

/-- Likelihood `P(Correct | Emotion)`; column 0 is correct, column 1
incorrect. -/
def P_correct : List (List ℝ) :=
  [[0.90, 0.10], [0.80, 0.20], [0.60, 0.40], [0.40, 0.60], [0.30, 0.70]]

/-- Likelihood `P(Feedback | Emotion)`; columns are Too Easy / Just Right /
Too Hard. -/
def P_feedback : List (List ℝ) :=
  [[0.70, 0.25, 0.05], [0.50, 0.40, 0.10], [0.20, 0.50, 0.30],
   [0.10, 0.40, 0.50], [0.05, 0.30, 0.65]]

/-- Gaussian parameters `(mean, stdev)` of the time likelihood, keyed by
emotion label. -/
def TIME_PARAMS : List (String × (ℝ × ℝ)) :=
  [("highly_confident", (5.0, 3.0)), ("confident", (10.0, 5.0)),
   ("confused", (18.0, 6.0)), ("highly_confused", (30.0, 8.0)),
   ("frustrated", (40.0, 10.0))]

/-- Gaussian density `(1/(σ√(2π))) · exp(-(x-μ)²/(2σσ))` as written in
`src/bayes_model.py`. -/
noncomputable def gaussian (x mu sigma : ℝ) : ℝ :=
  (1 / (sigma * Real.sqrt (2 * Real.pi))) *
    Real.exp (-((x - mu) ^ 2) / (2 * sigma * sigma))

/-- One entry of the unnormalized posterior of `infer_emotion`:
`PRIORS[i] * P_correct[i][c_idx] * P_feedback[i][f_idx] * p_time`.  The
dictionary access `TIME_PARAMS[emotion]` is modelled by an association
lookup (the default is never hit for the five fixed labels). -/
noncomputable def unnormEntry (i c_idx f_idx : ℕ) (time_sec : ℝ) : ℝ :=
  let p := (TIME_PARAMS.lookup (EMOTION_STATES.getD i "")).getD (0, 1)
  PRIORS.getD i 0 * (P_correct.getD i []).getD c_idx 0 *
    (P_feedback.getD i []).getD f_idx 0 * gaussian time_sec p.1 p.2

/-- Feedback index map of `infer_emotion`
(`{"Too Easy":0, "Just Right":1, "Too Hard":2}.get(feedback, 1)`). -/
def bm_feedbackIdx (feedback : String) : ℕ :=
  if feedback = "Too Easy" then 0
  else if feedback = "Just Right" then 1
  else if feedback = "Too Hard" then 2
  else 1

/-- Normalized posterior `unnorm / unnorm.sum()` of `infer_emotion`. -/
noncomputable def posteriorList (correct_bool : Bool) (time_sec : ℝ)
    (feedback : String) : List ℝ :=
  let c_idx : ℕ := if correct_bool then 0 else 1
  let f_idx : ℕ := bm_feedbackIdx feedback
  let unnorm : List ℝ :=
    (List.range 5).map (fun i => unnormEntry i c_idx f_idx time_sec)
  unnorm.map (fun u => u / unnorm.sum)

/-- The continuous-form Bayesian estimator `infer_emotion` of
`src/bayes_model.py`: MAP label (argmax of the posterior) plus the
posterior vector. -/
noncomputable def infer_emotion (correct_bool : Bool) (time_sec : ℝ)
    (feedback : String) : String × List ℝ :=
  (EMOTION_STATES.getD (listArgmax (posteriorList correct_bool time_sec feedback)) "",
    posteriorList correct_bool time_sec feedback)

lemma sqrt_two_pi_pos : 0 < Real.sqrt (2 * Real.pi) :=
  Real.sqrt_pos.mpr (by positivity)

lemma gaussian_pos (x mu sigma : ℝ) (hs : 0 < sigma) : 0 < gaussian x mu sigma := by
  unfold gaussian
  have h1 : 0 < Real.sqrt (2 * Real.pi) := sqrt_two_pi_pos
  positivity

lemma mul_exp_lt (a b ea eb : ℝ) (ha : 0 < a) (hab : a ≤ b) (he : ea < eb) :
    a * Real.exp ea < b * Real.exp eb := by
  have h1 : a * Real.exp ea < a * Real.exp eb :=
    mul_lt_mul_of_pos_left (Real.exp_lt_exp.mpr he) ha
  have h2 : a * Real.exp eb ≤ b * Real.exp eb :=
    mul_le_mul_of_nonneg_right hab (le_of_lt (Real.exp_pos eb))
  linarith

/-- Core comparison: a prior-weighted Gaussian term is strictly below
another when both its coefficient-over-σ and its (negated) exponent are
below the other's. -/
lemma term_lt (c1 c2 mu1 s1 mu2 s2 x : ℝ) (hc1 : 0 < c1) (hs1 : 0 < s1)
    (hA : c1 / s1 ≤ c2 / s2)
    (he : (x - mu2) ^ 2 / (2 * s2 * s2) < (x - mu1) ^ 2 / (2 * s1 * s1)) :
    c1 * gaussian x mu1 s1 < c2 * gaussian x mu2 s2 := by
  have hs : 0 < Real.sqrt (2 * Real.pi) := sqrt_two_pi_pos
  have h1 : c1 * gaussian x mu1 s1 =
      (c1 / s1 * (Real.sqrt (2 * Real.pi))⁻¹) *
        Real.exp (-((x - mu1) ^ 2) / (2 * s1 * s1)) := by
    unfold gaussian; ring
  have h2 : c2 * gaussian x mu2 s2 =
      (c2 / s2 * (Real.sqrt (2 * Real.pi))⁻¹) *
        Real.exp (-((x - mu2) ^ 2) / (2 * s2 * s2)) := by
    unfold gaussian; ring
  rw [h1, h2]
  apply mul_exp_lt
  · positivity
  · exact mul_le_mul_of_nonneg_right hA (inv_nonneg.mpr (le_of_lt hs))
  · rw [neg_div, neg_div]
    exact neg_lt_neg he

lemma listArgmax_five (a0 a1 a2 a3 a4 : ℝ) (h01 : a0 < a1) (h12 : a1 < a2)
    (h23 : a2 < a3) (h34 : a4 ≤ a3) : listArgmax [a0, a1, a2, a3, a4] = 3 := by
  simp only [listArgmax, argmaxAux]
  rw [if_pos h01, if_pos h12, if_pos h23, if_neg (not_lt.mpr h34)]

/-- Evaluation of `infer_emotion(correct=False, time=33.5, "Too Hard")`:
the MAP label under the module's tables is `highly_confused` (the
`highly_confused` term dominates the `frustrated` one, since
0.045/8 > 0.0455/10 and its Gaussian exponent is closer to zero). -/
lemma infer_emotion_at_worked_example :
    (infer_emotion false (33.5 : ℝ) "Too Hard").1 = "highly_confused" := by
  have hv0 : unnormEntry 0 1 2 (33.5 : ℝ) =
      0.25 * 0.10 * 0.05 * gaussian 33.5 5.0 3.0 := rfl
  have hv1 : unnormEntry 1 1 2 (33.5 : ℝ) =
      0.30 * 0.20 * 0.10 * gaussian 33.5 10.0 5.0 := rfl
  have hv2 : unnormEntry 2 1 2 (33.5 : ℝ) =
      0.20 * 0.40 * 0.30 * gaussian 33.5 18.0 6.0 := rfl
  have hv3 : unnormEntry 3 1 2 (33.5 : ℝ) =
      0.15 * 0.60 * 0.50 * gaussian 33.5 30.0 8.0 := rfl
  have hv4 : unnormEntry 4 1 2 (33.5 : ℝ) =
      0.10 * 0.70 * 0.65 * gaussian 33.5 40.0 10.0 := rfl
  have hu01 : unnormEntry 0 1 2 (33.5 : ℝ) < unnormEntry 1 1 2 (33.5 : ℝ) := by
    rw [hv0, hv1]
    exact term_lt _ _ _ _ _ _ _ (by norm_num) (by norm_num) (by norm_num) (by norm_num)
  have hu12 : unnormEntry 1 1 2 (33.5 : ℝ) < unnormEntry 2 1 2 (33.5 : ℝ) := by
    rw [hv1, hv2]
    exact term_lt _ _ _ _ _ _ _ (by norm_num) (by norm_num) (by norm_num) (by norm_num)
  have hu23 : unnormEntry 2 1 2 (33.5 : ℝ) < unnormEntry 3 1 2 (33.5 : ℝ) := by
    rw [hv2, hv3]
    exact term_lt _ _ _ _ _ _ _ (by norm_num) (by norm_num) (by norm_num) (by norm_num)
  have hu43 : unnormEntry 4 1 2 (33.5 : ℝ) < unnormEntry 3 1 2 (33.5 : ℝ) := by
    rw [hv4, hv3]
    exact term_lt _ _ _ _ _ _ _ (by norm_num) (by norm_num) (by norm_num) (by norm_num)
  have hp0 : 0 < unnormEntry 0 1 2 (33.5 : ℝ) := by
    rw [hv0]
    exact mul_pos (by norm_num) (gaussian_pos _ _ _ (by norm_num))
  have hp1 : 0 < unnormEntry 1 1 2 (33.5 : ℝ) := by
    rw [hv1]
    exact mul_pos (by norm_num) (gaussian_pos _ _ _ (by norm_num))
  have hp2 : 0 < unnormEntry 2 1 2 (33.5 : ℝ) := by
    rw [hv2]
    exact mul_pos (by norm_num) (gaussian_pos _ _ _ (by norm_num))
  have hp3 : 0 < unnormEntry 3 1 2 (33.5 : ℝ) := by
    rw [hv3]
    exact mul_pos (by norm_num) (gaussian_pos _ _ _ (by norm_num))
  have hp4 : 0 < unnormEntry 4 1 2 (33.5 : ℝ) := by
    rw [hv4]
    exact mul_pos (by norm_num) (gaussian_pos _ _ _ (by norm_num))
  have hpost : posteriorList false (33.5 : ℝ) "Too Hard" =
      ([unnormEntry 0 1 2 33.5, unnormEntry 1 1 2 33.5, unnormEntry 2 1 2 33.5,
        unnormEntry 3 1 2 33.5, unnormEntry 4 1 2 33.5].map
        (fun u => u / [unnormEntry 0 1 2 33.5, unnormEntry 1 1 2 33.5,
          unnormEntry 2 1 2 33.5, unnormEntry 3 1 2 33.5,
          unnormEntry 4 1 2 33.5].sum)) := rfl
  have hsum : (0 : ℝ) < [unnormEntry 0 1 2 (33.5 : ℝ), unnormEntry 1 1 2 33.5,
      unnormEntry 2 1 2 33.5, unnormEntry 3 1 2 33.5,
      unnormEntry 4 1 2 33.5].sum := by
    have : ([unnormEntry 0 1 2 (33.5 : ℝ), unnormEntry 1 1 2 33.5,
        unnormEntry 2 1 2 33.5, unnormEntry 3 1 2 33.5,
        unnormEntry 4 1 2 33.5].sum) =
        unnormEntry 0 1 2 (33.5 : ℝ) + (unnormEntry 1 1 2 33.5 +
          (unnormEntry 2 1 2 33.5 + (unnormEntry 3 1 2 33.5 +
            (unnormEntry 4 1 2 33.5 + 0)))) := rfl
    rw [this]
    linarith
  have hmap : (infer_emotion false (33.5 : ℝ) "Too Hard").1 =
      EMOTION_STATES.getD (listArgmax (posteriorList false 33.5 "Too Hard")) "" := rfl
  rw [hmap, hpost]
  simp only [List.map_cons, List.map_nil]
  rw [listArgmax_five _ _ _ _ _
    ((div_lt_div_iff_of_pos_right hsum).mpr hu01)
    ((div_lt_div_iff_of_pos_right hsum).mpr hu12)
    ((div_lt_div_iff_of_pos_right hsum).mpr hu23)
    (le_of_lt ((div_lt_div_iff_of_pos_right hsum).mpr hu43))]
  rfl

end BayesModel

namespace Module3Planning

/-- Python sets of literal strings are modelled as insertion-ordered
duplicate-free lists.  Every operation the planners perform on them
(membership, subset, intersection size, union, difference, equality) is
insensitive to the order of the representative list. -/
abbrev LSet := List String

/-- Python `set(...)` construction: keep the first occurrence of each
element. -/
def mkSet (l : List String) : LSet :=
  l.foldl (fun acc x => if x ∈ acc then acc else acc ++ [x]) []

/-- Python `s.issubset(t)` / `s <= t`. -/
def lsubset (s t : LSet) : Bool := s.all (fun x => decide (x ∈ t))

/-- Python `s & t`. -/
def linter (s t : LSet) : LSet := s.filter (fun x => decide (x ∈ t))

/-- Python `s - t` (also `s -= covered` where `covered = add & s`). -/
def ldiff (s t : LSet) : LSet := s.filter (fun x => decide (x ∉ t))

/-- Python `s | t`. -/
def lunion (s t : LSet) : LSet := s ++ t.filter (fun x => decide (x ∉ s))

/-- Python set equality `s == t`. -/
def lseteq (s t : LSet) : Bool := lsubset s t && lsubset t s

/-- A planning action record `{name, pre, add, del}`. -/
structure Act where
  name : String
  pre : LSet
  add : LSet
  del : LSet
  deriving DecidableEq, Repr

/-- The `add_action` helper: each field goes through `set(...)`. -/
def mkAct (name : String) (pre add del : List String) : Act :=
  ⟨name, mkSet pre, mkSet add, mkSet del⟩

/-- The `literal(pred, ch)` helper producing `"pred(ch1)"`. -/
def literal (pred : String) : String := pred ++ "(ch1)"

/-- The thirteen-action tutoring domain built by the module-level
`add_action` calls of `src/Module3_Planning.py`. -/
def ACTIONS : List Act :=
  [mkAct "TeachConcept" [literal "NoKnowledge"]
     [literal "BasicUnderstanding", literal "Neutral"] [literal "NoKnowledge"],
   mkAct "AskNeutralQuestion" [literal "Neutral"]
     [literal "ReadyForNeutralEval_Confident", literal "ReadyForNeutralEval_Bored",
      literal "ReadyForNeutralEval_Confused", literal "ReadyForNeutralEval_Frustrated"] [],
   mkAct "EvalNeutral_Confident" [literal "ReadyForNeutralEval_Confident"]
     [literal "Confident", literal "BranchVisited_Confident"] [],
   mkAct "EvalNeutral_Bored" [literal "ReadyForNeutralEval_Bored"]
     [literal "Bored", literal "BranchVisited_Bored"] [],
   mkAct "EvalNeutral_Confused" [literal "ReadyForNeutralEval_Confused"]
     [literal "Confused", literal "BranchVisited_Confused"] [],
   mkAct "EvalNeutral_Frustrated" [literal "ReadyForNeutralEval_Frustrated"]
     [literal "Frustrated", literal "BranchVisited_Frustrated"] [],
   mkAct "GiveHardProblem_FromConfident" [literal "Confident"]
     [literal "SolvedMany"] [],
   mkAct "GiveHardProblem_FromBored" [literal "Bored"]
     [literal "SolvedMany"] [],
   mkAct "GiveEasyProblem_FromConfused" [literal "Confused"]
     [literal "Confident"] [literal "Confused"],
   mkAct "GiveHint_FromFrustrated" [literal "Frustrated"]
     [literal "ReadyForEasyQuestion", literal "Confused"] [literal "Frustrated"],
   mkAct "AskEasyQuestion" [literal "ReadyForEasyQuestion"]
     [literal "ReadyForEasyEval"] [],
   mkAct "EvalEasy_Solved" [literal "ReadyForEasyEval"]
     [literal "Confident"] [literal "ReadyForEasyEval"],
   mkAct "FinalAssessment_AllBranches"
     [literal "BranchVisited_Confident", literal "BranchVisited_Bored",
      literal "BranchVisited_Confused", literal "BranchVisited_Frustrated",
      literal "SolvedMany"]
     [literal "FullKnowledge"] []]

/-- `actions_mutex(a1, a2, current_literals)`: inconsistent effects or
interference; competing needs is a documented no-op (always false).  The
`current_literals` argument is unused, as in the source. -/
def actions_mutex (a1 a2 : Act) (_cur : LSet) : Bool :=
  !(linter a1.add a2.del).isEmpty || !(linter a2.add a1.del).isEmpty ||
  !(linter a1.del a2.pre).isEmpty || !(linter a2.del a1.pre).isEmpty

/-- `itertools.combinations(l, 2)` in order. -/
def pairs {α : Type} : List α → List (α × α)
  | [] => []
  | x :: xs => (xs.map (fun y => (x, y))) ++ pairs xs

/-- The per-level action-mutex set: both orientations of every mutex
pair of applicable actions. -/
def mutexPairs (applicable : List Act) (cur : LSet) : List (String × String) :=
  (pairs applicable).foldl (fun acc p =>
    if actions_mutex p.1 p.2 cur then
      acc ++ [(p.1.name, p.2.name), (p.2.name, p.1.name)]
    else acc) []

/-- The per-level literal-mutex set: two literals of the next level are
mutex when every pair of their producers (actions adding them, plus a
`PERSIST_`-named pseudo-producer when the literal persists) is mutex;
any pair involving persistence counts as non-mutex. -/
def literalMutex (nextLits cur : LSet) (applicable : List Act)
    (mutexActs : List (String × String)) : List (String × String) :=
  let producers := fun l =>
    (applicable.filter (fun a => decide (l ∈ a.add))).map (fun a => a.name) ++
      (if l ∈ cur then ["PERSIST_" ++ l] else [])
  (pairs nextLits).foldl (fun acc p =>
    let prods1 := producers p.1
    let prods2 := producers p.2
    let allMutex := prods1.all (fun p1 => prods2.all (fun p2 =>
      if p1.startsWith "PERSIST_" || p2.startsWith "PERSIST_" then false
      else decide ((p1, p2) ∈ mutexActs)))
    if allMutex then acc ++ [(p.1, p.2), (p.2, p.1)] else acc) []

/-- One forward-expansion pass of `build_planning_graph`, returning the
levels produced after the given current literal level (the loop body of
the source, stopping at the fixed point or when the level budget runs
out). -/
def buildLoop (actions : List Act) : ℕ → LSet →
    (List LSet × List (List Act) × List (List (String × String)) ×
      List (List (String × String)))
  | 0, _cur => ([], [], [], [])
  | n + 1, cur =>
      let applicable := actions.filter (fun a => lsubset a.pre cur)
      let mutexActs := mutexPairs applicable cur
      let nextLits := applicable.foldl (fun acc a => lunion acc a.add) cur
      let litMutex := literalMutex nextLits cur applicable mutexActs
      if lseteq nextLits cur then
        ([nextLits], [applicable], [mutexActs], [litMutex])
      else
        let rest := buildLoop actions n nextLits
        (nextLits :: rest.1, applicable :: rest.2.1, mutexActs :: rest.2.2.1,
          litMutex :: rest.2.2.2)

/-- `build_planning_graph(initial_literals, actions, max_levels)`. -/
def build_planning_graph (initial : List String) (actions : List Act)
    (max_levels : ℕ) :
    (List LSet × List (List Act) × List (List (String × String)) ×
      List (List (String × String))) :=
  let init := mkSet initial
  let rest := buildLoop actions max_levels init
  (init :: rest.1, rest.2.1, rest.2.2.1, [] :: rest.2.2.2)

/-- The `level_with_goal` search of `graphplan_extract`: the loop has no
`break`, so the **last** level containing the goal wins. -/
def levelWithGoalAux (goal : LSet) : List LSet → ℕ → Option ℕ
  | [], _ => none
  | lits :: rest, i =>
      match levelWithGoalAux goal rest (i + 1) with
      | some j => some j
      | none => if lsubset goal lits then some i else none

/-- Index chosen by `graphplan_extract` to start the backward pass. -/
def levelWithGoal (goal : LSet) (lvls : List LSet) : Option ℕ :=
  levelWithGoalAux goal lvls 0

/-- Modelled from the spec: "find the first level whose literal set is a
superset of `goal`" — the lowest-index such level, for comparison with
the source's `levelWithGoal`. -/
def firstGoalLevel (goal : LSet) (lvls : List LSet) : Option ℕ :=
  lvls.findIdx? (fun lits => lsubset goal lits)

/-- Strict comparison corresponding to the Python sort key
`(-len(a.add & needed), len(a.pre))`. -/
def sortKeyLt (needed : LSet) (a b : Act) : Bool :=
  decide ((linter b.add needed).length < (linter a.add needed).length) ||
    (decide ((linter a.add needed).length = (linter b.add needed).length) &&
      decide (a.pre.length < b.pre.length))

/-- Insert after all elements not strictly greater: combined with a left
fold this reproduces Python's stable `sort`. -/
def stableInsert (lt : Act → Act → Bool) (x : Act) : List Act → List Act
  | [] => [x]
  | y :: ys => if lt x y then x :: y :: ys else y :: stableInsert lt x ys

/-- Stable sort by the given strict comparison (ties keep original
order), as Python's `list.sort(key=...)`. -/
def stableSort (lt : Act → Act → Bool) (l : List Act) : List Act :=
  l.foldl (fun acc x => stableInsert lt x acc) []

/-- One level of the backward pass of `graphplan_extract`: filter
candidates that add a needed literal, sort by coverage then precondition
count, then greedily keep non-mutex actions, covering needed literals and
adding preconditions. -/
def chooseAtLevel (available : List Act) (mutexActs : List (String × String))
    (needed : LSet) : List Act × LSet :=
  let candidates := available.filter
    (fun a => decide (0 < (linter a.add needed).length))
  let sorted := stableSort (sortKeyLt needed) candidates
  sorted.foldl (fun st a =>
    if st.1.any (fun c => decide ((a.name, c.name) ∈ mutexActs)) then st
    else (st.1 ++ [a], lunion (ldiff st.2 a.add) a.pre)) ([], needed)

/-- The backward pass over levels `lvl-1 … 0`, returning the chosen
action names per level in ascending level order together with the final
`needed` set. -/
def extractLoop (action_levels : List (List Act))
    (mutex_levels : List (List (String × String))) :
    ℕ → LSet → List (List String) × LSet
  | 0, needed => ([], needed)
  | lvl + 1, needed =>
      let step := chooseAtLevel (action_levels.getD lvl [])
        (mutex_levels.getD lvl []) needed
      let rest := extractLoop action_levels mutex_levels lvl step.2
      (rest.1 ++ [step.1.map (fun a => a.name)], rest.2)

/-- `graphplan_extract` with the final `needed` set exposed: `none` when
no literal level contains the goal, otherwise the flattened deduplicated
forward plan plus whatever remained in `needed` after level 0. -/
def graphplan_extract_aux (initial goal : List String) (actions : List Act)
    (max_levels : ℕ) : Option (List String × LSet) :=
  let g := build_planning_graph initial actions max_levels
  match levelWithGoal (mkSet goal) g.1 with
  | none => none
  | some lvl =>
      let bp := extractLoop g.2.1 g.2.2.1 lvl (mkSet goal)
      let flat := bp.1.foldl (fun acc names =>
        names.foldl (fun acc n => if n ∈ acc then acc else acc ++ [n]) acc) []
      some (flat, bp.2)

/-- `graphplan_extract(initial, goal, actions, max_levels)`. -/
def graphplan_extract (initial goal : List String) (actions : List Act)
    (max_levels : ℕ) : Option (List String) :=
  (graphplan_extract_aux initial goal actions max_levels).map (fun r => r.1)

/-- Failure cases of `simulate_plan`, carrying the 1-based step index and
the action name of the offending step. -/
inductive SimError where
  | actionNotFound (step : ℕ) (name : String)
  | preconditionsUnsat (step : ℕ) (name : String)
  deriving DecidableEq, Repr

/-- Result triple `(final_state, ok, error)` of `simulate_plan`. -/
structure SimResult where
  state : LSet
  ok : Bool
  err : Option SimError
  deriving DecidableEq, Repr

/-- The `name2act` dict of `simulate_plan`: later actions with the same
name overwrite earlier ones. -/
def name2act (actions : List Act) (n : String) : Option Act :=
  actions.reverse.find? (fun a => a.name == n)

/-- The replay loop of `simulate_plan` (`i` is the 1-based step index). -/
def simulateLoop (actions : List Act) : List String → ℕ → LSet → SimResult
  | [], _, state => ⟨state, true, none⟩
  | aname :: rest, i, state =>
      match name2act actions aname with
      | none => ⟨state, false, some (.actionNotFound i aname)⟩
      | some a =>
          if lsubset a.pre state then
            simulateLoop actions rest (i + 1) (lunion (ldiff state a.del) a.add)
          else ⟨state, false, some (.preconditionsUnsat i aname)⟩

/-- `simulate_plan(initial, plan, actions)`: apply delete-then-add along
the plan, checking preconditions at each step. -/
def simulate_plan (initial : List String) (plan : List String)
    (actions : List Act) : SimResult :=
  simulateLoop actions plan 1 (mkSet initial)

/-- A POP step record (the local `Step` constructor inside
`POPPlanner.plan`). -/
structure PStep where
  name : String
  pre : LSet
  add : LSet
  del : LSet
  deriving DecidableEq, Repr

/-- `Step(name, pre, add, delete)`: each field goes through `set(...)`. -/
def mkStep (name : String) (pre add del : List String) : PStep :=
  ⟨name, mkSet pre, mkSet add, mkSet del⟩

/-- Default step used only to totalize list indexing (indices are always
in range). -/
def defStep : PStep := ⟨"", [], [], []⟩

/-- Mutable state of the POP main loop: the step list, the ordering pairs,
the causal links `(producer, literal, consumer)` and the open-condition
queue `(consumer, literal)`. -/
structure PState where
  steps : List PStep
  order : List (ℕ × ℕ)
  links : List (ℕ × String × ℕ)
  opens : List (ℕ × String)
  deriving DecidableEq, Repr

/-- `order.add(p)`: Python set insertion, modelled as append-if-absent so
the pair list stays duplicate-free. -/
def orderInsert (p : ℕ × ℕ) (o : List (ℕ × ℕ)) : List (ℕ × ℕ) :=
  if p ∈ o then o else o ++ [p]

/-- The producer search of the POP loop: index of the first existing step
whose `add` contains the literal. -/
def findProducer (steps : List PStep) (lit : String) : Option ℕ :=
  steps.findIdx? (fun s => decide (lit ∈ s.add))

/-- One iteration of the POP main loop on a state whose open-condition
queue is nonempty: resolve the first open condition by reusing an
existing producer step or instantiating the first action schema that
adds the literal (`none` if there is none — the failure return), then
record the causal link, the three ordering pairs, and push the
producer's unsatisfied preconditions. -/
def applyStep (actions : List Act) (st : PState) : Option PState :=
  match st.opens with
  | [] => some st
  | (c, lit) :: rest =>
      let found : Option (ℕ × List PStep) :=
        match findProducer st.steps lit with
        | some idx => some (idx, st.steps)
        | none =>
            match actions.find? (fun a => decide (lit ∈ a.add)) with
            | none => none
            | some a =>
                some (st.steps.length,
                  st.steps ++ [(⟨a.name, a.pre, a.add, a.del⟩ : PStep)])
      match found with
      | none => none
      | some (p, steps') =>
          let order' := orderInsert (p, 1) (orderInsert (0, p)
            (orderInsert (p, c) st.order))
          let prod := steps'.getD p defStep
          let satisfied := fun pre => (List.range steps'.length).any (fun sid =>
            decide (pre ∈ (steps'.getD sid defStep).add) &&
              decide ((sid, p) ∈ order'))
          some { steps := steps', order := order',
                 links := st.links ++ [(p, lit, c)],
                 opens := rest ++ (prod.pre.filter (fun pre => !(satisfied pre))).map
                   (fun pre => (p, pre)) }

/-- The bounded POP main loop (`while open_conditions and iter_count <
max_iters`), with the remaining iteration budget as fuel. -/
def popLoop (actions : List Act) : ℕ → PState → Option PState
  | 0, st => some st
  | fuel + 1, st =>
      match st.opens with
      | [] => some st
      | _ :: _ =>
          match applyStep actions st with
          | none => none
          | some st' => popLoop actions fuel st'

/-- Initial POP state: `Start` adds the initial literals, `Finish`
requires the goal, `order = {(0,1)}`, and one open condition per goal
literal (iterating the goal argument as given). -/
def popInit (initial goal : List String) : PState :=
  { steps := [mkStep "Start" [] initial [], mkStep "Finish" goal [] []],
    order := [(0, 1)],
    links := [],
    opens := goal.map (fun lit => (1, lit)) }

/-- State after exactly `k` successful POP iterations (`none` when the
loop finished or failed strictly earlier). -/
def popSteps (actions : List Act) : ℕ → PState → Option PState
  | 0, st => some st
  | k + 1, st =>
      match st.opens with
      | [] => none
      | _ :: _ =>
          match applyStep actions st with
          | none => none
          | some st' => popSteps actions k st'

/-- Out-edge list of node `u` built from the ordering pairs (self-loops
skipped), in insertion order — the `adj` array of the source. -/
def kahnAdj (order : List (ℕ × ℕ)) (u : ℕ) : List ℕ :=
  (order.filter (fun p => decide (p.1 = u) && decide (p.1 ≠ p.2))).map
    (fun p => p.2)

/-- In-degree of node `v` (self-loops skipped) — the `indeg` array of the
source, as an integer since Python decrements below zero freely. -/
def kahnIndeg (order : List (ℕ × ℕ)) (v : ℕ) : ℤ :=
  ((order.filter (fun p => decide (p.2 = v) && decide (p.1 ≠ p.2))).length : ℤ)

/-- `indeg[v] -= 1` as a function update. -/
def kahnDecr (v : ℕ) (ind : ℕ → ℤ) : ℕ → ℤ :=
  fun x => if x = v then ind x - 1 else ind x

/-- One edge of the popped node: decrement the successor's in-degree and
enqueue it when the in-degree reaches exactly zero. -/
def kahnStepF (st : (ℕ → ℤ) × List ℕ) (v : ℕ) : (ℕ → ℤ) × List ℕ :=
  let ind' := kahnDecr v st.1
  if ind' v = 0 then (ind', st.2 ++ [v]) else (ind', st.2)

/-- Processing the out-edges of a popped node: decrement each successor's
in-degree and collect, in order, those that reach exactly zero. -/
def kahnStep (adj : List ℕ) (indeg : ℕ → ℤ) : (ℕ → ℤ) × List ℕ :=
  adj.foldl kahnStepF (indeg, [])

/-- Kahn's topological-sort loop: pop the queue head, append it to the
topological order, enqueue successors whose in-degree reaches zero. -/
def kahnLoop (adj : ℕ → List ℕ) : ℕ → (ℕ → ℤ) → List ℕ → List ℕ → List ℕ
  | 0, _, _, topo => topo
  | fuel + 1, indeg, queue, topo =>
      match queue with
      | [] => topo
      | u :: rest =>
          let s := kahnStep (adj u) indeg
          kahnLoop adj fuel s.1 (rest ++ s.2) (topo ++ [u])

/-- Kahn's algorithm as in the source: start from all nodes of in-degree
zero (ascending), run the loop (the fuel `n + 1` is enough, because each
iteration moves one node of `range n` into the duplicate-free `topo`). -/
def kahnTopo (n : ℕ) (order : List (ℕ × ℕ)) : List ℕ :=
  kahnLoop (kahnAdj order) (n + 1) (kahnIndeg order)
    ((List.range n).filter (fun i => decide (kahnIndeg order i = 0))) []

/-- Result record of `POPPlanner.plan`. -/
structure POPResult where
  steps : List PStep
  order : List (ℕ × ℕ)
  causal_links : List (ℕ × String × ℕ)
  linearization : List String
  deriving DecidableEq, Repr

/-- Causal-link deduplication keeping first occurrences. -/
def dedupLinks (links : List (ℕ × String × ℕ)) : List (ℕ × String × ℕ) :=
  links.foldl (fun acc c => if c ∈ acc then acc else acc ++ [c]) []

namespace POPPlanner

/-- `POPPlanner.plan(initial_literals, goal_literals, max_iters)`: run the
bounded causal-link loop, then topologically sort the ordering pairs and
return the linearization without the steps *named* `Start`/`Finish`. -/
def plan (actions : List Act) (initial goal : List String)
    (max_iters : ℕ) : Option POPResult :=
  match popLoop actions max_iters (popInit initial goal) with
  | none => none
  | some st =>
      let topo := kahnTopo st.steps.length st.order
      let linear := topo.filterMap (fun i =>
        let nm := (st.steps.getD i defStep).name
        if nm = "Start" ∨ nm = "Finish" then none else some nm)
      some ⟨st.steps, st.order, dedupLinks st.links, linear⟩

end POPPlanner

/-- A two-action domain on which the extractor finishes with `needed`
empty but the flattened plan is not executable: `exActA` needs `q`, which
only `exActB` (placed after it in the plan) provides. -/
def exActA : Act := mkAct "A" ["q"] ["g1", "g2"] []

/-- Companion action of `exActA`: provides `q` and the goal literal `h`. -/
def exActB : Act := mkAct "B" [] ["q", "h"] []

/-- One-action domain whose goal is already true initially; the planning
graph still grows for two levels, so the first and last goal-containing
levels differ. -/
def exActLoop : Act := mkAct "A" ["g"] ["x"] []

/-- The plan that `graphplan_extract` produces on the module's tutoring
domain from `{NoKnowledge(ch1)}` toward `{FullKnowledge(ch1)}`. -/
def tutoringPlan : List String :=
  ["TeachConcept", "AskNeutralQuestion", "EvalNeutral_Confused",
   "EvalNeutral_Confident", "EvalNeutral_Bored", "GiveEasyProblem_FromConfused",
   "EvalNeutral_Frustrated", "GiveHardProblem_FromConfident",
   "GiveHardProblem_FromBored", "FinalAssessment_AllBranches"]

lemma findProducer_none_iff (steps : List PStep) (lit : String) :
    findProducer steps lit = none ↔ ∀ s ∈ steps, lit ∉ s.add := by
  unfold findProducer
  rw [List.findIdx?_eq_none_iff]
  constructor
  · intro h s hs
    exact of_decide_eq_false (h s hs)
  · intro h s hs
    exact decide_eq_false (h s hs)

lemma find?_adds_none_iff (actions : List Act) (lit : String) :
    actions.find? (fun a => decide (lit ∈ a.add)) = none ↔
      ∀ a ∈ actions, lit ∉ a.add := by
  rw [List.find?_eq_none]
  constructor
  · intro h a ha hmem
    exact h a ha (decide_eq_true hmem)
  · intro h a ha hd
    exact h a ha (of_decide_eq_true hd)

lemma applyStep_none_iff (actions : List Act) (st : PState) (c : ℕ)
    (lit : String) (rest : List (ℕ × String)) (h : st.opens = (c, lit) :: rest) :
    applyStep actions st = none ↔
      (∀ s ∈ st.steps, lit ∉ s.add) ∧ ∀ a ∈ actions, lit ∉ a.add := by
  cases hsf : findProducer st.steps lit with
  | some idx =>
      constructor
      · intro hnone
        simp only [applyStep, h, hsf] at hnone
        exact Option.noConfusion hnone
      · rintro ⟨h1, _⟩
        rw [(findProducer_none_iff _ _).mpr h1] at hsf
        cases hsf
  | none =>
      cases hff : actions.find? (fun a => decide (lit ∈ a.add)) with
      | some a =>
          constructor
          · intro hnone
            simp only [applyStep, h, hsf, hff] at hnone
            exact Option.noConfusion hnone
          · rintro ⟨_, h2⟩
            rw [(find?_adds_none_iff actions lit).mpr h2] at hff
            cases hff
      | none =>
          constructor
          · intro _
            exact ⟨(findProducer_none_iff _ _).mp hsf,
              (find?_adds_none_iff _ _).mp hff⟩
          · intro _
            simp only [applyStep, h, hsf, hff]

lemma popLoop_none_iff (actions : List Act) (fuel : ℕ) (st : PState) :
    popLoop actions fuel st = none ↔
      ∃ k < fuel, ∃ st', popSteps actions k st = some st' ∧
        st'.opens ≠ [] ∧ applyStep actions st' = none := by
  induction fuel generalizing st with
  | zero =>
      simp only [popLoop]
      constructor
      · intro h; cases h
      · rintro ⟨k, hk, _⟩
        omega
  | succ fuel ih =>
      cases hop : st.opens with
      | nil =>
          simp only [popLoop, hop]
          constructor
          · intro h; cases h
          · rintro ⟨k, hk, st', hsteps, hne, happ⟩
            cases k with
            | zero =>
                simp only [popSteps, Option.some_inj] at hsteps
                subst hsteps
                exact (hne hop).elim
            | succ k =>
                simp only [popSteps, hop] at hsteps
                exact Option.noConfusion hsteps
      | cons o os =>
          cases happ : applyStep actions st with
          | none =>
              simp only [popLoop, hop, happ]
              constructor
              · intro _
                exact ⟨0, by omega, st, rfl, by rw [hop]; simp, happ⟩
              · intro _
                trivial
          | some st' =>
              simp only [popLoop, hop, happ]
              rw [ih st']
              constructor
              · rintro ⟨k, hk, st'', h1, h2, h3⟩
                refine ⟨k + 1, by omega, st'', ?_, h2, h3⟩
                simp only [popSteps, hop, happ]
                exact h1
              · rintro ⟨k, hk, st'', h1, h2, h3⟩
                cases k with
                | zero =>
                    simp only [popSteps, Option.some_inj] at h1
                    subst h1
                    rw [happ] at h3
                    cases h3
                | succ k =>
                    simp only [popSteps, hop, happ] at h1
                    exact ⟨k, by omega, st'', h1, h2, h3⟩

lemma plan_none_iff_popLoop (actions : List Act) (initial goal : List String)
    (maxIters : ℕ) :
    Module3Planning.POPPlanner.plan actions initial goal maxIters = none ↔
      popLoop actions maxIters (popInit initial goal) = none := by
  unfold POPPlanner.plan
  cases h : popLoop actions maxIters (popInit initial goal) <;> simp [h]

/-- The ordering relation of a POP result, self-loops ignored: `u` must
precede `v`. -/
def orel (E : List (ℕ × ℕ)) (u v : ℕ) : Prop := (u, v) ∈ E ∧ u ≠ v

/-- Number of in-edges of `v` whose source has not yet been popped into
`topo` (self-loops ignored): the value the mutable `indeg` array holds
during Kahn's loop. -/
def remIndeg (E : List (ℕ × ℕ)) (topo : List ℕ) (v : ℕ) : ℤ :=
  ((E.filter (fun p => decide (p.2 = v) && decide (p.1 ≠ p.2) &&
    decide (p.1 ∉ topo))).length : ℤ)

lemma remIndeg_nonneg (E : List (ℕ × ℕ)) (topo : List ℕ) (v : ℕ) :
    0 ≤ remIndeg E topo v := Int.natCast_nonneg _

lemma kahnIndeg_eq_remIndeg_nil (E : List (ℕ × ℕ)) (v : ℕ) :
    kahnIndeg E v = remIndeg E [] v := by
  unfold kahnIndeg remIndeg
  congr 2
  apply List.filter_congr
  intro p _
  simp

lemma remIndeg_eq_zero_iff (E : List (ℕ × ℕ)) (topo : List ℕ) (v : ℕ) :
    remIndeg E topo v = 0 ↔ ∀ u, orel E u v → u ∈ topo := by
  unfold remIndeg
  rw [Int.natCast_eq_zero, List.length_eq_zero]
  constructor
  · intro h u hu
    by_contra hmem
    have : (u, v) ∈ E.filter (fun p => decide (p.2 = v) && decide (p.1 ≠ p.2) &&
        decide (p.1 ∉ topo)) := by
      rw [List.mem_filter]
      exact ⟨hu.1, by simp [hu.2, hmem]⟩
    rw [h] at this
    cases this
  · intro h
    rw [List.filter_eq_nil_iff]
    intro p hp
    simp only [Bool.and_eq_true, decide_eq_true_eq, not_and, Bool.not_eq_true]
    intro hcond hnt
    apply hnt
    apply h p.1
    constructor
    · rw [← hcond.1]
      exact hp
    · intro hv
      exact hcond.2 (by rw [hv, hcond.1])

lemma remIndeg_snoc (E : List (ℕ × ℕ)) (hE : E.Nodup) (topo : List ℕ)
    (u : ℕ) (hu : u ∉ topo) (v : ℕ) :
    remIndeg E (topo ++ [u]) v =
      if (u, v) ∈ E ∧ u ≠ v then remIndeg E topo v - 1
      else remIndeg E topo v := by
  classical
  set P : ℕ × ℕ → Bool := fun p => decide (p.2 = v) && decide (p.1 ≠ p.2) &&
    decide (p.1 ∉ topo) with hP
  set A : List (ℕ × ℕ) := E.filter P with hA
  have hstep1 : remIndeg E (topo ++ [u]) v =
      ((A.filter (fun p => decide (p.1 ≠ u))).length : ℤ) := by
    unfold remIndeg
    rw [hA, List.filter_filter]
    congr 2
    apply List.filter_congr
    intro p _
    by_cases h1 : p.2 = v <;> by_cases h2 : p.1 ≠ p.2 <;>
      by_cases h3 : p.1 ∈ topo <;> by_cases h4 : p.1 = u <;>
      simp [hP, h1, h2, h3, h4, hu]
  have hsplit : A.length = (A.filter (fun p => decide (p.1 ≠ u))).length +
      (A.filter (fun p => decide (p.1 = u))).length := by
    rw [A.length_eq_length_filter_add (fun p => decide (p.1 ≠ u))]
    congr 1
    apply congrArg
    apply List.filter_congr
    intro p _
    by_cases h4 : p.1 = u <;> simp [h4]
  have hB : (A.filter (fun p => decide (p.1 = u))).length =
      if (u, v) ∈ E ∧ u ≠ v then 1 else 0 := by
    set B : List (ℕ × ℕ) := A.filter (fun p => decide (p.1 = u)) with hBdef
    have hBmem : ∀ p, p ∈ B ↔ p = (u, v) ∧ ((u, v) ∈ E ∧ u ≠ v) := by
      intro p
      rw [hBdef, List.mem_filter, hA, List.mem_filter, hP]
      constructor
      · rintro ⟨⟨hpe, hc⟩, h4⟩
        simp only [Bool.and_eq_true, decide_eq_true_eq] at hc h4
        obtain ⟨⟨h1, h2⟩, _⟩ := hc
        have hp : p = (u, v) := Prod.ext_iff.mpr ⟨h4, h1⟩
        refine ⟨hp, ?_, ?_⟩
        · rw [← hp]
          exact hpe
        · intro huv
          apply h2
          rw [h4, huv, h1]
      · rintro ⟨rfl, he, hne⟩
        refine ⟨⟨he, ?_⟩, by simp⟩
        simp [hne, hu]
    by_cases hcond : (u, v) ∈ E ∧ u ≠ v
    · rw [if_pos hcond]
      have hmem : (u, v) ∈ B := (hBmem (u, v)).mpr ⟨rfl, hcond⟩
      have hnd : B.Nodup := (hE.filter _).filter _
      have hone : ∀ (l : List (ℕ × ℕ)), l.Nodup → (∀ p ∈ l, p = (u, v)) →
          (u, v) ∈ l → l.length = 1 := by
        intro l hnd' hall hm
        cases l with
        | nil => cases hm
        | cons b bs =>
            cases bs with
            | nil => rfl
            | cons b2 bs2 =>
                exfalso
                have h1 := hall b (by simp)
                have h2 := hall b2 (by simp)
                rw [List.nodup_cons] at hnd'
                exact hnd'.1 (by rw [h1, ← h2]; exact List.mem_cons_self _ _)
      exact hone B hnd (fun p hp => ((hBmem p).mp hp).1) hmem
    · rw [if_neg hcond, List.length_eq_zero]
      exact List.eq_nil_iff_forall_not_mem.mpr
        (fun p hp => hcond ((hBmem p).mp hp).2)
  have hremA : remIndeg E topo v = (A.length : ℤ) := rfl
  rw [hstep1, hremA]
  by_cases hcond : (u, v) ∈ E ∧ u ≠ v
  · rw [if_pos hcond]
    rw [if_pos hcond] at hB
    omega
  · rw [if_neg hcond]
    rw [if_neg hcond] at hB
    omega

lemma kahnAdj_mem (E : List (ℕ × ℕ)) (u v : ℕ) :
    v ∈ kahnAdj E u ↔ (u, v) ∈ E ∧ u ≠ v := by
  unfold kahnAdj
  rw [List.mem_map]
  constructor
  · rintro ⟨p, hp, rfl⟩
    rw [List.mem_filter] at hp
    obtain ⟨hpe, hpc⟩ := hp
    simp only [Bool.and_eq_true, decide_eq_true_eq] at hpc
    obtain ⟨h1, h2⟩ := hpc
    constructor
    · rw [show (u, p.2) = p from by rw [← h1]]
      exact hpe
    · rw [← h1]
      exact h2
  · rintro ⟨he, hne⟩
    refine ⟨(u, v), ?_, rfl⟩
    rw [List.mem_filter]
    exact ⟨he, by simp [hne]⟩

lemma kahnAdj_nodup (E : List (ℕ × ℕ)) (hE : E.Nodup) (u : ℕ) :
    (kahnAdj E u).Nodup := by
  unfold kahnAdj
  apply List.Nodup.map_on
  · intro p hp q hq hpq
    rw [List.mem_filter] at hp hq
    simp only [Bool.and_eq_true, decide_eq_true_eq] at hp hq
    have : p = (u, p.2) := by rw [← hp.2.1]
    have hq' : q = (u, q.2) := by rw [← hq.2.1]
    rw [this, hq', hpq]
  · exact hE.filter _

lemma nodup_length_le (l : List ℕ) (n : ℕ) (hnd : l.Nodup)
    (hlt : ∀ x ∈ l, x < n) : l.length ≤ n := by
  calc l.length = l.toFinset.card := (List.toFinset_card_of_nodup hnd).symm
    _ ≤ (Finset.range n).card := by
        apply Finset.card_le_card
        intro x hx
        rw [List.mem_toFinset] at hx
        exact Finset.mem_range.mpr (hlt x hx)
    _ = n := Finset.card_range n

lemma kahnStepF_eq (ind : ℕ → ℤ) (acc : List ℕ) (v : ℕ) :
    kahnStepF (ind, acc) v =
      (kahnDecr v ind, if ind v = 1 then acc ++ [v] else acc) := by
  unfold kahnStepF kahnDecr
  by_cases hz : ind v = 1
  · rw [if_pos (by simp [hz]), if_pos hz]
  · rw [if_neg (by simp; omega), if_neg hz]

lemma kahnStep_fold (adjU : List ℕ) (hnd : adjU.Nodup) (ind : ℕ → ℤ)
    (acc : List ℕ) :
    adjU.foldl kahnStepF (ind, acc) =
      ((fun x => if x ∈ adjU then ind x - 1 else ind x),
        acc ++ adjU.filter (fun v => decide (ind v = 1))) := by
  induction adjU generalizing ind acc with
  | nil =>
      simp only [List.foldl_nil, List.filter_nil, List.append_nil]
      refine Prod.ext ?_ rfl
      funext x
      simp
  | cons v rest ih =>
      obtain ⟨hv, hndr⟩ := List.nodup_cons.mp hnd
      rw [List.foldl_cons, kahnStepF_eq, ih hndr]
      refine Prod.ext ?_ ?_
      · funext x
        by_cases hxv : x = v
        · subst hxv
          simp [kahnDecr, hv]
        · by_cases hxr : x ∈ rest <;> simp [kahnDecr, hxv, hxr]
      · have hf : rest.filter (fun w => decide (kahnDecr v ind w = 1)) =
            rest.filter (fun w => decide (ind w = 1)) := by
          apply List.filter_congr
          intro w hw
          have hwv : w ≠ v := fun h => hv (h ▸ hw)
          simp [kahnDecr, hwv]
        simp only [hf, List.filter_cons]
        by_cases hz : ind v = 1
        · simp [hz]
        · simp [hz]

lemma kahnStep_eq (adjU : List ℕ) (hnd : adjU.Nodup) (ind : ℕ → ℤ) :
    kahnStep adjU ind =
      ((fun x => if x ∈ adjU then ind x - 1 else ind x),
        adjU.filter (fun v => decide (ind v = 1))) := by
  unfold kahnStep
  rw [kahnStep_fold adjU hnd ind []]
  rfl

lemma kahnLoop_master (E : List (ℕ × ℕ)) (n : ℕ) (hE : E.Nodup)
    (hEr : ∀ p ∈ E, p.1 < n ∧ p.2 < n) :
    ∀ (fuel : ℕ) (indeg : ℕ → ℤ) (queue topo : List ℕ),
      (topo ++ queue).Nodup →
      (∀ x ∈ topo ++ queue, x < n) →
      (∀ v, indeg v = remIndeg E topo v) →
      (∀ v ∈ queue, ∀ u, orel E u v → u ∈ topo) →
      (∀ v ∈ topo, ∀ u, orel E u v → u ∈ topo ∧
        topo.indexOf u < topo.indexOf v) →
      (∀ v, v < n → indeg v = 0 → v ∈ topo ∨ v ∈ queue) →
      n + 1 ≤ fuel + topo.length →
      (∃ ext, kahnLoop (kahnAdj E) fuel indeg queue topo = topo ++ ext) ∧
      (kahnLoop (kahnAdj E) fuel indeg queue topo).Nodup ∧
      (∀ x ∈ kahnLoop (kahnAdj E) fuel indeg queue topo, x < n) ∧
      (∀ v ∈ topo ++ queue, v ∈ kahnLoop (kahnAdj E) fuel indeg queue topo) ∧
      (∀ v ∈ kahnLoop (kahnAdj E) fuel indeg queue topo, ∀ u, orel E u v →
        u ∈ kahnLoop (kahnAdj E) fuel indeg queue topo ∧
        (kahnLoop (kahnAdj E) fuel indeg queue topo).indexOf u <
          (kahnLoop (kahnAdj E) fuel indeg queue topo).indexOf v) ∧
      (∀ v, v < n → v ∉ kahnLoop (kahnAdj E) fuel indeg queue topo →
        ∃ u, orel E u v ∧ u ∉ kahnLoop (kahnAdj E) fuel indeg queue topo) := by
  intro fuel
  induction fuel with
  | zero =>
      intro indeg queue topo htq hlt hind hq ht hz hfuel
      exfalso
      have h1 : topo.Nodup := (List.sublist_append_left topo queue).nodup htq
      have h2 : topo.length ≤ n :=
        nodup_length_le topo n h1 (fun x hx => hlt x (List.mem_append_left _ hx))
      omega
  | succ fuel ih =>
      intro indeg queue topo htq hlt hind hq ht hz hfuel
      cases queue with
      | nil =>
          simp only [kahnLoop]
          refine ⟨⟨[], by simp⟩, by simpa using htq,
            (fun x hx => hlt x (List.mem_append_left _ hx)),
            (fun v hv => by simpa using hv), ht, ?_⟩
          intro v hvn hvt
          have hnz : indeg v ≠ 0 := by
            intro h0
            rcases hz v hvn h0 with h | h
            · exact hvt h
            · cases h
          rw [hind v] at hnz
          by_contra hno
          push_neg at hno
          apply hnz
          rw [remIndeg_eq_zero_iff]
          exact hno
      | cons u rest =>
          have hadjnd : (kahnAdj E u).Nodup := kahnAdj_nodup E hE u
          have hstep := kahnStep_eq (kahnAdj E u) hadjnd indeg
          simp only [kahnLoop, hstep]
          set newly : List ℕ :=
            (kahnAdj E u).filter (fun v => decide (indeg v = 1)) with hnewly
          set ind' : ℕ → ℤ :=
            fun x => if x ∈ kahnAdj E u then indeg x - 1 else indeg x with hind'
          have hut : u ∉ topo := fun h =>
            (List.disjoint_of_nodup_append htq) h (List.mem_cons_self u rest)
          have hnewmem : ∀ w ∈ newly, orel E u w ∧ indeg w = 1 := by
            intro w hw
            rw [hnewly, List.mem_filter] at hw
            exact ⟨(kahnAdj_mem E u w).mp hw.1, of_decide_eq_true hw.2⟩
          have hnewtopo : ∀ w ∈ newly, w ∉ topo := by
            intro w hw hwt
            exact hut (ht w hwt u (hnewmem w hw).1).1
          have hnewu : ∀ w ∈ newly, w ≠ u := by
            intro w hw h
            exact (hnewmem w hw).1.2 h.symm
          have hnewrest : ∀ w ∈ newly, w ∉ rest := by
            intro w hw hwr
            exact hut (hq w (List.mem_cons_of_mem u hwr) u (hnewmem w hw).1)
          have hnewnd : newly.Nodup := hadjnd.filter _
          have hnewlt : ∀ w ∈ newly, w < n :=
            fun w hw => (hEr _ (hnewmem w hw).1.1).2
          have h0 : ((topo ++ [u]) ++ rest).Nodup := by
            have : topo ++ [u] ++ rest = topo ++ u :: rest := by
              rw [List.append_assoc, List.singleton_append]
            rw [this]
            exact htq
          have htq' : ((topo ++ [u]) ++ (rest ++ newly)).Nodup := by
            rw [← List.append_assoc, List.nodup_append]
            refine ⟨h0, hnewnd, ?_⟩
            intro a ha han
            rw [List.append_assoc, List.singleton_append] at ha
            rcases List.mem_append.mp ha with ha | ha
            · exact hnewtopo a han ha
            · rcases List.mem_cons.mp ha with rfl | ha
              · exact hnewu a han rfl
              · exact hnewrest a han ha
          have hlt' : ∀ x ∈ (topo ++ [u]) ++ (rest ++ newly), x < n := by
            intro x hx
            rw [← List.append_assoc] at hx
            rcases List.mem_append.mp hx with hx | hx
            · rw [List.append_assoc, List.singleton_append] at hx
              exact hlt x (by
                rcases List.mem_append.mp hx with hx | hx
                · exact List.mem_append_left _ hx
                · exact List.mem_append_right _ hx)
            · exact hnewlt x hx
          have hindinv' : ∀ v, ind' v = remIndeg E (topo ++ [u]) v := by
            intro v
            rw [remIndeg_snoc E hE topo u hut v]
            simp only [hind']
            by_cases hva : v ∈ kahnAdj E u
            · rw [if_pos hva, if_pos ((kahnAdj_mem E u v).mp hva), hind v]
            · rw [if_neg hva, if_neg (fun hc => hva ((kahnAdj_mem E u v).mpr hc)),
                hind v]
          have hq' : ∀ v ∈ rest ++ newly, ∀ w, orel E w v → w ∈ topo ++ [u] := by
            intro v hv w hw
            rcases List.mem_append.mp hv with hv | hv
            · exact List.mem_append_left _ (hq v (List.mem_cons_of_mem u hv) w hw)
            · have hz' : ind' v = 0 := by
                simp only [hind']
                have hva : v ∈ kahnAdj E u := (List.mem_filter.mp hv).1
                rw [if_pos hva, (hnewmem v hv).2]
                norm_num
              rw [hindinv' v, remIndeg_eq_zero_iff] at hz'
              exact hz' w hw
          have ht' : ∀ v ∈ topo ++ [u], ∀ w, orel E w v → w ∈ topo ++ [u] ∧
              (topo ++ [u]).indexOf w < (topo ++ [u]).indexOf v := by
            intro v hv w hw
            rcases List.mem_append.mp hv with hv | hv
            · obtain ⟨hwt, hidx⟩ := ht v hv w hw
              refine ⟨List.mem_append_left _ hwt, ?_⟩
              rw [List.indexOf_append_of_mem hwt, List.indexOf_append_of_mem hv]
              exact hidx
            · rw [List.mem_singleton] at hv
              subst hv
              have hwt : w ∈ topo := hq v (List.mem_cons_self v rest) w hw
              refine ⟨List.mem_append_left _ hwt, ?_⟩
              rw [List.indexOf_append_of_mem hwt,
                List.indexOf_append_of_not_mem hut]
              have h1 : topo.indexOf w < topo.length :=
                List.indexOf_lt_length.mpr hwt
              simp
              omega
          have hz2 : ∀ v, v < n → ind' v = 0 →
              v ∈ topo ++ [u] ∨ v ∈ rest ++ newly := by
            intro v hvn hv0
            by_cases hva : v ∈ kahnAdj E u
            · right
              apply List.mem_append_right
              rw [hnewly, List.mem_filter]
              refine ⟨hva, ?_⟩
              simp only [hind'] at hv0
              rw [if_pos hva] at hv0
              simp only [decide_eq_true_eq]
              omega
            · simp only [hind'] at hv0
              rw [if_neg hva] at hv0
              rcases hz v hvn hv0 with h | h
              · exact Or.inl (List.mem_append_left _ h)
              · rcases List.mem_cons.mp h with rfl | h
                · exact Or.inl (List.mem_append_right _ (List.mem_singleton.mpr rfl))
                · exact Or.inr (List.mem_append_left _ h)
          have hfuel' : n + 1 ≤ fuel + (topo ++ [u]).length := by
            rw [List.length_append, List.length_singleton]
            omega
          obtain ⟨⟨ext, hext⟩, hnd, hltT, hmemT, hordT, hstuckT⟩ :=
            ih ind' (rest ++ newly) (topo ++ [u]) htq' hlt' hindinv' hq' ht' hz2 hfuel'
          refine ⟨⟨[u] ++ ext, by rw [hext, List.append_assoc]⟩,
            hnd, hltT, ?_, hordT, hstuckT⟩
          intro v hv
          rcases List.mem_append.mp hv with hv | hv
          · exact hmemT v (List.mem_append_left _ (List.mem_append_left _ hv))
          · rcases List.mem_cons.mp hv with rfl | hv
            · exact hmemT v (List.mem_append_left _
                (List.mem_append_right _ (List.mem_singleton.mpr rfl)))
            · exact hmemT v (List.mem_append_right _ (List.mem_append_left _ hv))

lemma kahnTopo_spec (E : List (ℕ × ℕ)) (n : ℕ) (hE : E.Nodup)
    (hEr : ∀ p ∈ E, p.1 < n ∧ p.2 < n) :
    (kahnTopo n E).Nodup ∧
    (∀ x ∈ kahnTopo n E, x < n) ∧
    (∀ v ∈ kahnTopo n E, ∀ u, orel E u v →
      u ∈ kahnTopo n E ∧
        (kahnTopo n E).indexOf u < (kahnTopo n E).indexOf v) ∧
    (∀ v, v < n → v ∉ kahnTopo n E →
      ∃ u, orel E u v ∧ u ∉ kahnTopo n E) := by
  unfold kahnTopo
  have h := kahnLoop_master E n hE hEr (n + 1) (kahnIndeg E)
    ((List.range n).filter (fun i => decide (kahnIndeg E i = 0))) []
    (by simpa using List.Nodup.filter _ (List.nodup_range _))
    (by
      intro x hx
      simp only [List.nil_append, List.mem_filter, List.mem_range] at hx
      exact hx.1)
    (fun v => kahnIndeg_eq_remIndeg_nil E v)
    (by
      intro v hv u hu
      rw [List.mem_filter] at hv
      have h0 : kahnIndeg E v = 0 := of_decide_eq_true hv.2
      rw [kahnIndeg_eq_remIndeg_nil, remIndeg_eq_zero_iff] at h0
      exact h0 u hu)
    (by intro v hv; cases hv)
    (by
      intro v hvn h0
      right
      rw [List.mem_filter, List.mem_range]
      exact ⟨hvn, decide_eq_true h0⟩)
    (by simp)
  obtain ⟨-, hnd, hlt, -, hord, hstuck⟩ := h
  exact ⟨hnd, hlt, hord, hstuck⟩

lemma transGen_irrefl_of_rank {r : ℕ → ℕ → Prop} (rk : ℕ → ℕ)
    (h : ∀ u v, r u v → rk u < rk v) : ∀ v, ¬ Relation.TransGen r v v := by
  have key : ∀ a b, Relation.TransGen r a b → rk a < rk b := by
    intro a b hab
    induction hab with
    | single h1 => exact h _ _ h1
    | tail _ h2 ih => exact ih.trans (h _ _ h2)
  intro v hv
  exact absurd (key v v hv) (lt_irrefl _)

lemma transGen_has_out_edge {r : ℕ → ℕ → Prop} (a b : ℕ)
    (hab : Relation.TransGen r a b) : ∃ w, r a w := by
  induction hab with
  | single h1 => exact ⟨_, h1⟩
  | tail _ _ ih => exact ih

lemma transGen_has_in_edge {r : ℕ → ℕ → Prop} (a b : ℕ)
    (hab : Relation.TransGen r a b) : ∃ u, r u b := by
  induction hab with
  | single h1 => exact ⟨_, h1⟩
  | tail _ h2 _ => exact ⟨_, h2⟩

lemma kahnTopo_cycle_not_mem (E : List (ℕ × ℕ)) (n : ℕ) (hE : E.Nodup)
    (hEr : ∀ p ∈ E, p.1 < n ∧ p.2 < n) (v : ℕ)
    (hcyc : Relation.TransGen (orel E) v v) : v ∉ kahnTopo n E := by
  obtain ⟨-, -, hord, -⟩ := kahnTopo_spec E n hE hEr
  intro hv
  have key : ∀ a b, Relation.TransGen (orel E) a b → b ∈ kahnTopo n E →
      a ∈ kahnTopo n E ∧
        (kahnTopo n E).indexOf a < (kahnTopo n E).indexOf b := by
    intro a b hab
    induction hab with
    | single h1 => intro hb; exact hord _ hb _ h1
    | tail _ h2 ih =>
        intro hc
        obtain ⟨hb, hlt1⟩ := hord _ hc _ h2
        obtain ⟨ha, hlt2⟩ := ih hb
        exact ⟨ha, hlt2.trans hlt1⟩
  obtain ⟨-, hlt⟩ := key v v hcyc hv
  exact absurd hlt (lt_irrefl _)

lemma kahnTopo_complete (E : List (ℕ × ℕ)) (n : ℕ) (hE : E.Nodup)
    (hEr : ∀ p ∈ E, p.1 < n ∧ p.2 < n)
    (hacyc : ∀ w, ¬ Relation.TransGen (orel E) w w) :
    ∀ v, v < n → v ∈ kahnTopo n E := by
  classical
  obtain ⟨-, -, -, hstuck⟩ := kahnTopo_spec E n hE hEr
  have main : ∀ k v, v < n →
      ((Finset.range n).filter
        (fun u => Relation.TransGen (orel E) u v)).card = k →
      v ∈ kahnTopo n E := by
    intro k
    induction k using Nat.strong_induction_on with
    | _ k ih =>
        intro v hvn hcard
        by_contra hv
        obtain ⟨u, hu, huT⟩ := hstuck v hvn hv
        have hun : u < n := (hEr _ hu.1).1
        have hsub : (Finset.range n).filter
            (fun w => Relation.TransGen (orel E) w u) ⊆
            (Finset.range n).filter
            (fun w => Relation.TransGen (orel E) w v) := by
          intro w hw
          rw [Finset.mem_filter] at hw ⊢
          exact ⟨hw.1, hw.2.tail hu⟩
        have humem : u ∈ (Finset.range n).filter
            (fun w => Relation.TransGen (orel E) w v) := by
          rw [Finset.mem_filter, Finset.mem_range]
          exact ⟨hun, Relation.TransGen.single hu⟩
        have hunotmem : u ∉ (Finset.range n).filter
            (fun w => Relation.TransGen (orel E) w u) := by
          rw [Finset.mem_filter]
          rintro ⟨-, hc⟩
          exact hacyc u hc
        have hltk : ((Finset.range n).filter
            (fun w => Relation.TransGen (orel E) w u)).card < k := by
          rw [← hcard]
          apply Finset.card_lt_card
          rw [Finset.ssubset_def]
          exact ⟨hsub, fun hc => hunotmem (hc humem)⟩
        exact huT (ih _ hltk u hun rfl)
  intro v hvn
  exact main _ v hvn rfl

lemma filter_length_le_card (l : List ℕ) (hnd : l.Nodup) (s : Finset ℕ)
    (h : ∀ x ∈ l, x ∈ s) : l.length ≤ s.card := by
  rw [← List.toFinset_card_of_nodup hnd]
  apply Finset.card_le_card
  intro x hx
  exact h x (List.mem_toFinset.mp hx)

lemma filterMap_length_eq_filter {α β : Type} (f : α → Option β)
    (P : α → Bool) :
    ∀ l : List α, (∀ x ∈ l, (f x).isSome = P x) →
      (l.filterMap f).length = (l.filter P).length := by
  intro l
  induction l with
  | nil => intro _; rfl
  | cons x xs ih =>
      intro h
      have hx := h x (List.mem_cons_self x xs)
      have hxs := fun y hy => h y (List.mem_cons_of_mem x hy)
      cases hfx : f x with
      | none =>
          have hpx : P x = false := by rw [← hx, hfx]; rfl
          simp [List.filterMap_cons, List.filter_cons, hfx, hpx, ih hxs]
      | some b =>
          have hpx : P x = true := by rw [← hx, hfx]; rfl
          simp [List.filterMap_cons, List.filter_cons, hfx, hpx, ih hxs]

lemma range_filter_ne01_length (n : ℕ) (hn : 2 ≤ n) :
    ((List.range n).filter
      (fun i => decide (i ≠ 0) && decide (i ≠ 1))).length = n - 2 := by
  obtain ⟨k, rfl⟩ : ∃ k, n = 2 + k := ⟨n - 2, by omega⟩
  rw [List.range_add, List.filter_append]
  have h1 : (List.range 2).filter
      (fun i => decide (i ≠ 0) && decide (i ≠ 1)) = [] := by decide
  have h2 : ((List.range k).map (fun i => 2 + i)).filter
      (fun i => decide (i ≠ 0) && decide (i ≠ 1)) =
      (List.range k).map (fun i => 2 + i) := by
    rw [List.filter_eq_self]
    intro a ha
    rw [List.mem_map] at ha
    obtain ⟨i, -, rfl⟩ := ha
    simp only [Bool.and_eq_true, decide_eq_true_eq]
    omega
  rw [h1, h2, List.nil_append, List.length_map, List.length_range]
  omega

lemma kahnTopo_filter_count (E : List (ℕ × ℕ)) (n : ℕ) (hE : E.Nodup)
    (hEr : ∀ p ∈ E, p.1 < n ∧ p.2 < n) (hn : 2 ≤ n)
    (hgood : ∀ p ∈ E, p.1 ≠ p.2 → p.1 ≠ 1 ∧ p.2 ≠ 0) :
    ((∀ v, ¬ Relation.TransGen (orel E) v v) ↔
      ((kahnTopo n E).filter
        (fun i => decide (i ≠ 0) && decide (i ≠ 1))).length = n - 2) ∧
    ∀ v, Relation.TransGen (orel E) v v →
      ((kahnTopo n E).filter
        (fun i => decide (i ≠ 0) && decide (i ≠ 1))).length < n - 2 := by
  obtain ⟨hTnd, hTlt, -, -⟩ := kahnTopo_spec E n hE hEr
  have hcyc : ∀ v, Relation.TransGen (orel E) v v →
      ((kahnTopo n E).filter
        (fun i => decide (i ≠ 0) && decide (i ≠ 1))).length < n - 2 := by
    intro v hv
    obtain ⟨w, hw⟩ := transGen_has_out_edge v v hv
    obtain ⟨u, hu⟩ := transGen_has_in_edge v v hv
    have hvn : v < n := (hEr _ hw.1).1
    have hv1 : v ≠ 1 := (hgood _ hw.1 hw.2).1
    have hv0 : v ≠ 0 := (hgood _ hu.1 hu.2).2
    have hvT : v ∉ kahnTopo n E := kahnTopo_cycle_not_mem E n hE hEr v hv
    have hb : ((kahnTopo n E).filter
        (fun i => decide (i ≠ 0) && decide (i ≠ 1))).length ≤
        (Finset.range n \ {0, 1, v}).card := by
      apply filter_length_le_card
      · exact hTnd.filter _
      · intro x hx
        rw [List.mem_filter] at hx
        have hx1 := hTlt x hx.1
        have hxP := hx.2
        simp only [Bool.and_eq_true, decide_eq_true_eq] at hxP
        rw [Finset.mem_sdiff, Finset.mem_range]
        refine ⟨hx1, ?_⟩
        simp only [Finset.mem_insert, Finset.mem_singleton]
        push_neg
        exact ⟨hxP.1, hxP.2, fun hxv => hvT (hxv ▸ hx.1)⟩
    have hcard : ({0, 1, v} : Finset ℕ).card = 3 := by
      rw [Finset.card_insert_of_not_mem (by
        simp only [Finset.mem_insert, Finset.mem_singleton]
        push_neg
        constructor <;> omega),
        Finset.card_insert_of_not_mem (by
          simp only [Finset.mem_singleton]
          omega),
        Finset.card_singleton]
    have hsub : ({0, 1, v} : Finset ℕ) ⊆ Finset.range n := by
      intro x hx
      simp only [Finset.mem_insert, Finset.mem_singleton] at hx
      rw [Finset.mem_range]
      rcases hx with rfl | rfl | rfl <;> omega
    rw [Finset.card_sdiff hsub, Finset.card_range, hcard] at hb
    omega
  refine ⟨⟨?_, ?_⟩, hcyc⟩
  · intro hacyc
    have hcomp := kahnTopo_complete E n hE hEr hacyc
    have hsub1 : (kahnTopo n E).filter
        (fun i => decide (i ≠ 0) && decide (i ≠ 1)) ⊆
        (List.range n).filter
        (fun i => decide (i ≠ 0) && decide (i ≠ 1)) := by
      intro x hx
      rw [List.mem_filter] at hx ⊢
      exact ⟨List.mem_range.mpr (hTlt x hx.1), hx.2⟩
    have hsub2 : (List.range n).filter
        (fun i => decide (i ≠ 0) && decide (i ≠ 1)) ⊆
        (kahnTopo n E).filter
        (fun i => decide (i ≠ 0) && decide (i ≠ 1)) := by
      intro x hx
      rw [List.mem_filter] at hx ⊢
      exact ⟨hcomp x (List.mem_range.mp hx.1), hx.2⟩
    have hle1 := (List.subperm_of_subset (hTnd.filter _) hsub1).length_le
    have hle2 := (List.subperm_of_subset
      (List.Nodup.filter _ (List.nodup_range _)) hsub2).length_le
    have hrange := range_filter_ne01_length n hn
    omega
  · intro hlen
    by_contra hnacyc
    push_neg at hnacyc
    obtain ⟨v, hv⟩ := hnacyc
    have := hcyc v hv
    omega

lemma levelWithGoalAux_none_iff (goal : LSet) (lvls : List LSet) (i : ℕ) :
    levelWithGoalAux goal lvls i = none ↔
      ∀ l ∈ lvls, lsubset goal l = false := by
  induction lvls generalizing i with
  | nil => simp [levelWithGoalAux]
  | cons lits rest ih =>
      cases hrec : levelWithGoalAux goal rest (i + 1) with
      | some j =>
          simp only [levelWithGoalAux, hrec]
          constructor
          · intro h; cases h
          · intro h
            have h2 : levelWithGoalAux goal rest (i + 1) = none :=
              (ih (i + 1)).mpr (fun l hl => h l (List.mem_cons_of_mem _ hl))
            rw [hrec] at h2
            cases h2
      | none =>
          simp only [levelWithGoalAux, hrec]
          split_ifs with hsub
          · constructor
            · intro h; cases h
            · intro h
              rw [h lits (List.mem_cons_self lits rest)] at hsub
              cases hsub
          · constructor
            · intro _ l hl
              rw [List.mem_cons] at hl
              rcases hl with rfl | hl
              · exact Bool.eq_false_iff.mpr hsub
              · exact (ih (i + 1)).mp hrec l hl
            · intro _; rfl

lemma levelWithGoalAux_some (goal : LSet) (lvls : List LSet) (i j : ℕ)
    (h : levelWithGoalAux goal lvls i = some j) :
    i ≤ j ∧ j - i < lvls.length ∧
      lsubset goal (lvls.getD (j - i) []) = true ∧
      ∀ m, j - i < m → m < lvls.length →
        lsubset goal (lvls.getD m []) = false := by
  induction lvls generalizing i with
  | nil => cases h
  | cons lits rest ih =>
      cases hrec : levelWithGoalAux goal rest (i + 1) with
      | some j' =>
          rw [levelWithGoalAux, hrec] at h
          rw [Option.some_inj] at h
          rw [h] at hrec
          obtain ⟨h1, h2, h3, h4⟩ := ih (i + 1) hrec
          have hji : j - i = (j - (i + 1)) + 1 := by omega
          refine ⟨by omega, by simp only [List.length_cons]; omega, ?_, ?_⟩
          · rw [hji, List.getD_cons_succ]
            exact h3
          · intro m hm hmlen
            have hm1 : ∃ m', m = m' + 1 := ⟨m - 1, by omega⟩
            obtain ⟨m', rfl⟩ := hm1
            rw [List.getD_cons_succ]
            exact h4 m' (by omega) (by simpa using hmlen)
      | none =>
          rw [levelWithGoalAux, hrec] at h
          split_ifs at h with hsub
          · obtain rfl : i = j := by injection h
            refine ⟨le_refl _, by simp, ?_, ?_⟩
            · simpa using hsub
            · intro m hm hmlen
              obtain ⟨m', rfl⟩ : ∃ m', m = m' + 1 := ⟨m - 1, by omega⟩
              rw [List.getD_cons_succ]
              have hall := (levelWithGoalAux_none_iff goal rest (i + 1)).mp hrec
              refine hall _ ?_
              rw [List.getD_eq_getElem _ _ (by simpa using hmlen)]
              exact List.getElem_mem _

lemma graphplan_extract_aux_none_iff (initial goal : List String)
    (actions : List Act) (maxL : ℕ) :
    graphplan_extract_aux initial goal actions maxL = none ↔
      levelWithGoal (mkSet goal) (build_planning_graph initial actions maxL).1 =
        none := by
  unfold graphplan_extract_aux
  cases h : levelWithGoal (mkSet goal) (build_planning_graph initial actions maxL).1 with
  | none => simp [h]
  | some lvl => simp [h]

lemma graphplan_extract_none_iff (initial goal : List String)
    (actions : List Act) (maxL : ℕ) :
    graphplan_extract initial goal actions maxL = none ↔
      graphplan_extract_aux initial goal actions maxL = none := by
  unfold graphplan_extract
  cases h : graphplan_extract_aux initial goal actions maxL <;> simp [h]

lemma findProducer_some : ∀ (steps : List PStep) (lit : String) (p : ℕ),
    findProducer steps lit = some p →
      p < steps.length ∧ lit ∈ (steps.getD p defStep).add := by
  intro steps
  induction steps with
  | nil => intro lit p h; cases h
  | cons s ss ih =>
      intro lit p h
      unfold findProducer at h
      rw [List.findIdx?_cons] at h
      by_cases hs : lit ∈ s.add
      · rw [if_pos (decide_eq_true hs)] at h
        obtain rfl : (0 : ℕ) = p := Option.some_inj.mp h
        refine ⟨by simp, ?_⟩
        rw [List.getD_cons_zero]
        exact hs
      · rw [if_neg (by simpa using hs)] at h
        rw [List.findIdx?_succ, Option.map_eq_some'] at h
        obtain ⟨q, hq, hqp⟩ := h
        have hqp' : q + 1 = p := hqp
        subst hqp'
        obtain ⟨h1, h2⟩ := ih lit q hq
        refine ⟨by simp only [List.length_cons]; omega, ?_⟩
        rw [List.getD_cons_succ]
        exact h2

lemma orderInsert_mem (p q : ℕ × ℕ) (o : List (ℕ × ℕ)) :
    q ∈ orderInsert p o ↔ q ∈ o ∨ q = p := by
  unfold orderInsert
  by_cases hp : p ∈ o
  · rw [if_pos hp]
    constructor
    · exact Or.inl
    · rintro (h | rfl)
      · exact h
      · exact hp
  · rw [if_neg hp, List.mem_append, List.mem_singleton]

lemma orderInsert_nodup (p : ℕ × ℕ) (o : List (ℕ × ℕ)) (h : o.Nodup) :
    (orderInsert p o).Nodup := by
  unfold orderInsert
  by_cases hp : p ∈ o
  · rw [if_pos hp]; exact h
  · rw [if_neg hp]
    exact List.Nodup.append h (List.nodup_singleton p)
      (by intro a ha hb; rw [List.mem_singleton] at hb; subst hb; exact hp ha)

lemma applyStep_some_shape (actions : List Act) (st st' : PState) (c : ℕ)
    (lit : String) (rest : List (ℕ × String))
    (hopens : st.opens = (c, lit) :: rest)
    (h : applyStep actions st = some st') :
    ∃ p steps',
      ((findProducer st.steps lit = some p ∧ steps' = st.steps) ∨
       (p = st.steps.length ∧
        ∃ a, a ∈ actions ∧ lit ∈ a.add ∧
          steps' = st.steps ++ [(⟨a.name, a.pre, a.add, a.del⟩ : PStep)])) ∧
      st'.steps = steps' ∧
      st'.order = orderInsert (p, 1) (orderInsert (0, p)
        (orderInsert (p, c) st.order)) ∧
      st'.links = st.links ++ [(p, lit, c)] ∧
      (∀ o ∈ st'.opens, o ∈ rest ∨
        (o.1 = p ∧ o.2 ∈ (steps'.getD p defStep).pre)) := by
  cases hsf : findProducer st.steps lit with
  | some idx =>
      simp only [applyStep, hopens, hsf] at h
      obtain rfl := Option.some_inj.mp h
      refine ⟨idx, st.steps, Or.inl ⟨rfl, rfl⟩, rfl, rfl, rfl, ?_⟩
      intro o ho
      simp only [List.mem_append, List.mem_map] at ho
      rcases ho with ho | ⟨pre, hpre, rfl⟩
      · exact Or.inl ho
      · rw [List.mem_filter] at hpre
        exact Or.inr ⟨rfl, hpre.1⟩
  | none =>
      cases hff : actions.find? (fun a => decide (lit ∈ a.add)) with
      | none =>
          simp only [applyStep, hopens, hsf, hff] at h
          exact Option.noConfusion h
      | some a =>
          simp only [applyStep, hopens, hsf, hff] at h
          obtain rfl := Option.some_inj.mp h
          have hpa := List.find?_some hff
          refine ⟨st.steps.length,
            st.steps ++ [(⟨a.name, a.pre, a.add, a.del⟩ : PStep)],
            Or.inr ⟨rfl, a, List.mem_of_find?_eq_some hff,
              of_decide_eq_true hpa, rfl⟩, rfl, rfl, rfl, ?_⟩
          intro o ho
          simp only [List.mem_append, List.mem_map] at ho
          rcases ho with ho | ⟨pre, hpre, rfl⟩
          · exact Or.inl ho
          · rw [List.mem_filter] at hpre
            exact Or.inr ⟨rfl, hpre.1⟩

/-- The loop invariant of the POP main loop: the `Start`/`Finish`
sentinels sit at indices 0 and 1 (`Start` has no preconditions, `Finish`
adds nothing), the ordering pairs stay in range and duplicate-free with
no proper edge out of `Finish` or into `Start`, open conditions point at
in-range non-`Start` consumers, and every step from index 2 on was
instantiated from an action schema. -/
def PInv (actions : List Act) (st : PState) : Prop :=
  2 ≤ st.steps.length ∧
  (st.steps.getD 0 defStep).name = "Start" ∧
  (st.steps.getD 0 defStep).pre = [] ∧
  (st.steps.getD 1 defStep).name = "Finish" ∧
  (st.steps.getD 1 defStep).add = [] ∧
  (∀ p ∈ st.order, p.1 < st.steps.length ∧ p.2 < st.steps.length ∧
    (p.1 ≠ p.2 → p.1 ≠ 1 ∧ p.2 ≠ 0)) ∧
  st.order.Nodup ∧
  (∀ o ∈ st.opens, o.1 < st.steps.length ∧ o.1 ≠ 0) ∧
  (∀ i, 2 ≤ i → i < st.steps.length →
    ∃ a ∈ actions, st.steps.getD i defStep =
      (⟨a.name, a.pre, a.add, a.del⟩ : PStep))

lemma popInit_PInv (actions : List Act) (initial goal : List String) :
    PInv actions (popInit initial goal) := by
  refine ⟨by simp [popInit], rfl, rfl, rfl, rfl, ?_, ?_, ?_, ?_⟩
  · intro p hp
    simp only [popInit, List.mem_singleton] at hp
    subst hp
    exact ⟨by simp [popInit], by simp [popInit], fun _ => ⟨by decide, by decide⟩⟩
  · simp [popInit]
  · intro o ho
    simp only [popInit, List.mem_map] at ho
    obtain ⟨lit, -, rfl⟩ := ho
    exact ⟨by simp [popInit], Nat.one_ne_zero⟩
  · intro i h2 hlt
    exfalso
    simp only [popInit, List.length_cons, List.length_nil] at hlt
    omega

lemma applyStep_PInv (actions : List Act) (st st' : PState)
    (hinv : PInv actions st) (h : applyStep actions st = some st') :
    PInv actions st' := by
  obtain ⟨hlen, hn0, hp0, hn1, ha1, hord, hnd, hop, hact⟩ := hinv
  cases hopens : st.opens with
  | nil =>
      simp only [applyStep, hopens] at h
      obtain rfl := Option.some_inj.mp h
      exact ⟨hlen, hn0, hp0, hn1, ha1, hord, hnd, hop, hact⟩
  | cons o rest =>
      obtain ⟨c, lit⟩ := o
      obtain ⟨p, steps', hcase, hsteps, horder, -, hopens'⟩ :=
        applyStep_some_shape actions st st' c lit rest hopens h
      have hext : ∀ i, i < st.steps.length →
          steps'.getD i defStep = st.steps.getD i defStep := by
        rcases hcase with ⟨-, rfl⟩ | ⟨-, a, -, -, rfl⟩
        · intro i _; rfl
        · intro i hi; exact List.getD_append _ _ _ _ hi
      have hlen' : st.steps.length ≤ steps'.length := by
        rcases hcase with ⟨-, rfl⟩ | ⟨-, a, -, -, rfl⟩
        · exact le_refl _
        · simp
      have hplt : p < steps'.length := by
        rcases hcase with ⟨hfp, rfl⟩ | ⟨rfl, a, -, -, rfl⟩
        · exact (findProducer_some st.steps lit p hfp).1
        · simp
      have hpne1 : p ≠ 1 := by
        rcases hcase with ⟨hfp, -⟩ | ⟨rfl, a, -, -, -⟩
        · intro hp1
          subst hp1
          have hmem := (findProducer_some st.steps lit 1 hfp).2
          rw [ha1] at hmem
          cases hmem
        · omega
      have hcops := hop (c, lit)
        (by rw [hopens]; exact List.mem_cons_self _ _)
      refine ⟨?_, ?_, ?_, ?_, ?_, ?_, ?_, ?_, ?_⟩
      · rw [hsteps]; omega
      · rw [hsteps, hext 0 (by omega)]; exact hn0
      · rw [hsteps, hext 0 (by omega)]; exact hp0
      · rw [hsteps, hext 1 (by omega)]; exact hn1
      · rw [hsteps, hext 1 (by omega)]; exact ha1
      · intro q hq
        rw [horder, orderInsert_mem, orderInsert_mem, orderInsert_mem] at hq
        rcases hq with (((hq | rfl) | rfl) | rfl)
        · obtain ⟨h1, h2, h3⟩ := hord q hq
          rw [hsteps]
          exact ⟨by omega, by omega, h3⟩
        · rw [hsteps]
          refine ⟨hplt, by omega, ?_⟩
          intro _
          exact ⟨hpne1, hcops.2⟩
        · rw [hsteps]
          refine ⟨by omega, hplt, ?_⟩
          intro hne
          exact ⟨Nat.zero_ne_one, fun hpz => hne (by rw [hpz])⟩
        · rw [hsteps]
          refine ⟨hplt, by omega, ?_⟩
          intro _
          exact ⟨hpne1, Nat.one_ne_zero⟩
      · rw [horder]
        exact orderInsert_nodup _ _
          (orderInsert_nodup _ _ (orderInsert_nodup _ _ hnd))
      · intro o ho
        rcases hopens' o ho with hor | ⟨ho1, ho2⟩
        · have hoo := hop o
            (by rw [hopens]; exact List.mem_cons_of_mem _ hor)
          rw [hsteps]
          exact ⟨by omega, hoo.2⟩
        · rw [hsteps]
          refine ⟨by rw [ho1]; exact hplt, ?_⟩
          rw [ho1]
          intro hpz
          rw [hpz, hext 0 (by omega), hp0] at ho2
          cases ho2
      · intro i h2 hi
        rw [hsteps] at hi ⊢
        rcases hcase with ⟨-, rfl⟩ | ⟨-, a, hamem, -, rfl⟩
        · exact hact i h2 hi
        · rw [List.length_append, List.length_singleton] at hi
          by_cases hilt : i < st.steps.length
          · rw [List.getD_append _ _ _ _ hilt]
            exact hact i h2 hilt
          · have hieq : i = st.steps.length := by omega
            subst hieq
            refine ⟨a, hamem, ?_⟩
            rw [List.getD_append_right _ _ _ _ (le_refl _), Nat.sub_self,
              List.getD_cons_zero]

lemma popLoop_PInv (actions : List Act) : ∀ (fuel : ℕ) (st st' : PState),
    PInv actions st → popLoop actions fuel st = some st' →
    PInv actions st' := by
  intro fuel
  induction fuel with
  | zero =>
      intro st st' hinv h
      simp only [popLoop] at h
      obtain rfl := Option.some_inj.mp h
      exact hinv
  | succ fuel ih =>
      intro st st' hinv h
      cases hop : st.opens with
      | nil =>
          simp only [popLoop, hop] at h
          obtain rfl := Option.some_inj.mp h
          exact hinv
      | cons o os =>
          cases hap : applyStep actions st with
          | none =>
              simp only [popLoop, hop, hap] at h
              cases h
          | some st1 =>
              simp only [popLoop, hop, hap] at h
              exact ih st1 st' (applyStep_PInv actions st st1 hinv hap) h

lemma plan_some_inv (actions : List Act) (initial goal : List String)
    (m : ℕ) (res : POPResult)
    (h : POPPlanner.plan actions initial goal m = some res) :
    ∃ st, popLoop actions m (popInit initial goal) = some st ∧
      PInv actions st ∧ res.steps = st.steps ∧ res.order = st.order ∧
      res.linearization = (kahnTopo st.steps.length st.order).filterMap
        (fun i =>
          if (st.steps.getD i defStep).name = "Start" ∨
             (st.steps.getD i defStep).name = "Finish" then none
          else some (st.steps.getD i defStep).name) := by
  unfold POPPlanner.plan at h
  cases hpl : popLoop actions m (popInit initial goal) with
  | none => rw [hpl] at h; cases h
  | some st =>
      rw [hpl] at h
      obtain rfl := Option.some_inj.mp h
      exact ⟨st, rfl,
        popLoop_PInv actions m _ st (popInit_PInv actions initial goal) hpl,
        rfl, rfl, rfl⟩

lemma plan_linearization_names (actions : List Act)
    (initial goal : List String) (m : ℕ) (res : POPResult)
    (h : POPPlanner.plan actions initial goal m = some res) :
    ∀ nm ∈ res.linearization, nm ≠ "Start" ∧ nm ≠ "Finish" := by
  obtain ⟨st, -, -, -, -, hlin⟩ := plan_some_inv actions initial goal m res h
  intro nm hnm
  rw [hlin, List.mem_filterMap] at hnm
  obtain ⟨i, -, hfi⟩ := hnm
  by_cases hc : (st.steps.getD i defStep).name = "Start" ∨
      (st.steps.getD i defStep).name = "Finish"
  · rw [if_pos hc] at hfi
    cases hfi
  · rw [if_neg hc] at hfi
    obtain rfl := Option.some_inj.mp hfi
    push_neg at hc
    exact hc

/-- An action schema whose name collides with the `Start` sentinel (the
step it instantiates is dropped from the linearization by name). -/
def exActStart : Act := mkAct "Start" [] ["g"] []

/-- A one-action domain with an ordinary name, used to instantiate the
linearization-length property. -/
def exActPlain : Act := mkAct "A" [] ["g"] []

/-- The result `POPPlanner.plan` returns on the `exActStart` domain with
empty initial state and goal `{g}`: three steps (the instantiated action
is *named* `Start`), an acyclic order, one causal link, and an empty
linearization. -/
def exStartResult : POPResult :=
  ⟨[⟨"Start", [], [], []⟩, ⟨"Finish", ["g"], [], []⟩,
    ⟨"Start", [], ["g"], []⟩],
   [(0, 1), (2, 1), (0, 2)], [(2, "g", 1)], []⟩

/-- The result `POPPlanner.plan` returns on the `exActPlain` domain with
empty initial state and goal `{g}`. -/
def exPlainResult : POPResult :=
  ⟨[⟨"Start", [], [], []⟩, ⟨"Finish", ["g"], [], []⟩,
    ⟨"A", [], ["g"], []⟩],
   [(0, 1), (2, 1), (0, 2)], [(2, "g", 1)], ["A"]⟩

end Module3Planning

namespace Claims

open Module1Bayesian Module4RF

/-- Claim C1 is refuted by a two-action domain: the backward pass ends
with `needed` empty and returns the plan `[A, B]`, yet the simulation
fails (`A` runs before its producer `B` because `A` was chosen first at
the same level and the flattening preserves choice order). -/
theorem graphplan_complete_extraction_unsound :
    Module3Planning.graphplan_extract_aux [] ["g1", "g2", "h"]
      [Module3Planning.exActA, Module3Planning.exActB] 10 =
      some (["A", "B"], []) ∧
    (Module3Planning.simulate_plan [] ["A", "B"]
      [Module3Planning.exActA, Module3Planning.exActB]).ok = false := by
  constructor
  · decide
  · decide

/-- Claim C1, amended: the extractor-validator round trip is not
guaranteed in general (even with `needed` ending empty), but it does hold
on the module's own tutoring domain: from `{NoKnowledge(ch1)}` toward
`{FullKnowledge(ch1)}` the extractor returns the ten-step `tutoringPlan`
(with `needed` ending as `{NoKnowledge(ch1)}`), the validator replays it
with `ok=true`, and the final state contains the goal. -/
theorem graphplan_end_to_end_tutoring :
    Module3Planning.graphplan_extract_aux [Module3Planning.literal "NoKnowledge"]
      [Module3Planning.literal "FullKnowledge"] Module3Planning.ACTIONS 10 =
      some (Module3Planning.tutoringPlan, [Module3Planning.literal "NoKnowledge"]) ∧
    (Module3Planning.simulate_plan [Module3Planning.literal "NoKnowledge"]
      Module3Planning.tutoringPlan Module3Planning.ACTIONS).ok = true ∧
    Module3Planning.lsubset
      (Module3Planning.mkSet [Module3Planning.literal "FullKnowledge"])
      (Module3Planning.simulate_plan [Module3Planning.literal "NoKnowledge"]
        Module3Planning.tutoringPlan Module3Planning.ACTIONS).state = true := by
  refine ⟨by decide, by decide, by decide⟩

/-- Claim C7: `POPPlanner.plan` returns `None` exactly when, at some
iteration within the budget, the open condition at the head of the queue
holds a literal that no existing step adds (Start's add-set being the
initial literals, by construction of `popInit`) and no action schema
adds; in every other case a result structure is returned (the function is
total — nothing is raised). -/
theorem pop_plan_none_iff_unachievable (initial goal : List String)
    (actions : List Module3Planning.Act) (maxIters : ℕ) :
    (Module3Planning.POPPlanner.plan actions initial goal maxIters = none ↔
      ∃ k < maxIters, ∃ st,
        Module3Planning.popSteps actions k (Module3Planning.popInit initial goal) =
          some st ∧
        ∃ c lit rest, st.opens = (c, lit) :: rest ∧
          (∀ s ∈ st.steps, lit ∉ s.add) ∧ ∀ a ∈ actions, lit ∉ a.add) ∧
    (Module3Planning.POPPlanner.plan actions initial goal maxIters = none ∨
      ∃ r, Module3Planning.POPPlanner.plan actions initial goal maxIters = some r) := by
  constructor
  · rw [Module3Planning.plan_none_iff_popLoop, Module3Planning.popLoop_none_iff]
    constructor
    · rintro ⟨k, hk, st', h1, h2, h3⟩
      obtain ⟨⟨c, lit⟩, rest, hop⟩ := List.exists_cons_of_ne_nil h2
      exact ⟨k, hk, st', h1, c, lit, rest, hop,
        (Module3Planning.applyStep_none_iff actions st' c lit rest hop).mp h3⟩
    · rintro ⟨k, hk, st', h1, c, lit, rest, hop, hun⟩
      exact ⟨k, hk, st', h1, by rw [hop]; simp,
        (Module3Planning.applyStep_none_iff actions st' c lit rest hop).mpr hun⟩
  · cases h : Module3Planning.POPPlanner.plan actions initial goal maxIters with
    | none => exact Or.inl rfl
    | some r => exact Or.inr ⟨r, rfl⟩

/-- Witness for C7: on the empty action domain with goal `{g}`, the first
iteration pops the unachievable literal `g`, so `plan` returns `None`. -/
theorem pop_plan_none_iff_unachievable_witness :
    Module3Planning.POPPlanner.plan [] [] ["g"] 5000 = none :=
  (pop_plan_none_iff_unachievable [] ["g"] [] 5000).1.mpr
    ⟨0, by omega, Module3Planning.popInit [] ["g"], rfl, 1, "g", [], rfl,
      by decide, by simp⟩

/-- Claim C2 is refuted on its second half: with the one-action domain
`exActLoop` and initial state `{g}` equal to the goal, the first literal
level that contains the goal is level 0, but the source's
`level_with_goal` loop has no `break`, so the backward pass starts from
the last such level (level 2 here). -/
theorem graphplan_level_not_first :
    Module3Planning.levelWithGoal (Module3Planning.mkSet ["g"])
      (Module3Planning.build_planning_graph ["g"] [Module3Planning.exActLoop] 10).1 =
      some 2 ∧
    Module3Planning.firstGoalLevel (Module3Planning.mkSet ["g"])
      (Module3Planning.build_planning_graph ["g"] [Module3Planning.exActLoop] 10).1 =
      some 0 ∧
    (2 : ℕ) ≠ 0 := by
  refine ⟨by decide, by decide, by decide⟩

/-- Claim C2, amended: `graphplan_extract` returns `None` exactly when no
built literal level is a superset of the goal; otherwise its backward
pass starts from the **last** (highest-index) literal level that is a
superset of the goal, not the first. -/
theorem graphplan_none_iff_goal_level (initial goal : List String)
    (actions : List Module3Planning.Act) (maxL : ℕ) :
    (Module3Planning.graphplan_extract initial goal actions maxL = none ↔
      ∀ l ∈ (Module3Planning.build_planning_graph initial actions maxL).1,
        Module3Planning.lsubset (Module3Planning.mkSet goal) l = false) ∧
    (∀ j, Module3Planning.levelWithGoal (Module3Planning.mkSet goal)
        (Module3Planning.build_planning_graph initial actions maxL).1 = some j →
      j < (Module3Planning.build_planning_graph initial actions maxL).1.length ∧
      Module3Planning.lsubset (Module3Planning.mkSet goal)
        ((Module3Planning.build_planning_graph initial actions maxL).1.getD j []) =
        true ∧
      ∀ m, j < m →
        m < (Module3Planning.build_planning_graph initial actions maxL).1.length →
        Module3Planning.lsubset (Module3Planning.mkSet goal)
          ((Module3Planning.build_planning_graph initial actions maxL).1.getD m []) =
          false) := by
  constructor
  · rw [Module3Planning.graphplan_extract_none_iff,
      Module3Planning.graphplan_extract_aux_none_iff]
    exact Module3Planning.levelWithGoalAux_none_iff _ _ 0
  · intro j hj
    have h := Module3Planning.levelWithGoalAux_some _ _ 0 j hj
    simpa using h

/-- Witness for the amended C2 on the `exActLoop` domain, where the
backward pass starts from level 2. -/
theorem graphplan_none_iff_goal_level_witness :
    2 < (Module3Planning.build_planning_graph ["g"] [Module3Planning.exActLoop] 10).1.length ∧
    Module3Planning.lsubset (Module3Planning.mkSet ["g"])
      ((Module3Planning.build_planning_graph ["g"] [Module3Planning.exActLoop] 10).1.getD 2 []) =
      true ∧
    ∀ m, 2 < m →
      m < (Module3Planning.build_planning_graph ["g"] [Module3Planning.exActLoop] 10).1.length →
      Module3Planning.lsubset (Module3Planning.mkSet ["g"])
        ((Module3Planning.build_planning_graph ["g"] [Module3Planning.exActLoop] 10).1.getD m []) =
        false :=
  (graphplan_none_iff_goal_level ["g"] ["g"] [Module3Planning.exActLoop] 10).2 2
    (by decide)

/-- Claim C3 is refuted: on evidence `(correct=False, time=33.5,
feedback="Too Hard")` the continuous estimator's MAP label is not
`frustrated` (it is `highly_confused`: the `highly_confused` unnormalized
term 0.045/8·exp(-0.0957)/√(2π) strictly exceeds the `frustrated` term
0.0455/10·exp(-0.21125)/√(2π)). -/
theorem infer_emotion_worked_example_not_frustrated :
    (BayesModel.infer_emotion false (33.5 : ℝ) "Too Hard").1 ≠ "frustrated" := by
  rw [BayesModel.infer_emotion_at_worked_example]
  decide

/-- Claim C3, amended: on evidence `(correct=False, time=33.5,
feedback="Too Hard")` and the module's priors, likelihood tables and
Gaussian time parameters, the argmax (MAP) emotion label returned by
`infer_emotion` is `highly_confused`. -/
theorem infer_emotion_worked_example_map :
    (BayesModel.infer_emotion false (33.5 : ℝ) "Too Hard").1 = "highly_confused" :=
  BayesModel.infer_emotion_at_worked_example

/-- Claim C6: the table-form estimator returns the emotion label at the
argmax row of the CPT column with index `C + 2*T + 6*F`, where `C` is 0 for
correct and 1 otherwise, `T` buckets the time at 10 and 30 seconds, and `F`
maps the three feedback strings to 0/1/2 with every other string defaulting
to 1; the evidence `(correct, 15s, "Just Right")` selects column 8. -/
theorem cpt_column_indexing :
    (∀ (correct : Bool) (t : ℚ) (fb : String),
        evaluate_emotional_status_stepwise correct t fb =
          EMOTION_STATES.getD
            (listArgmax (CPD.map (fun row =>
              row.getD ((if correct then 0 else 1) +
                2 * (if t < 10 then 0 else if t < 30 then 1 else 2) +
                6 * feedbackIdx fb) 0))) "") ∧
    (∀ fb : String, fb ≠ "Too Easy" → fb ≠ "Just Right" → fb ≠ "Too Hard" →
        feedbackIdx fb = 1) ∧
    columnIndex true 15 "Just Right" = 8 ∧
    evaluate_emotional_status_stepwise true 15 "Just Right" = "highly_confident" := by
  refine ⟨fun correct t fb => rfl, fun fb h1 h2 h3 => ?_, ?_, ?_⟩
  · simp [feedbackIdx, h1, h2, h3]
  · simp [columnIndex, corrIdx, timeIdx, feedbackIdx]; norm_num
  · have h8 : columnIndex true 15 "Just Right" = 8 := by
      simp [columnIndex, corrIdx, timeIdx, feedbackIdx]; norm_num
    simp [evaluate_emotional_status_stepwise, h8, CPD, EMOTION_STATES,
      listArgmax, argmaxAux]
    norm_num

/-- Witness for C6 at a concrete unmapped feedback string. -/
theorem cpt_column_indexing_witness : feedbackIdx "makes no sense" = 1 :=
  cpt_column_indexing.2.1 "makes no sense" (by decide) (by decide) (by decide)

/-- Claim C9: for `n_buckets ≥ 1` each component of `discretize_state` lies
in `[0, n_buckets)` for every rational input (1.0 included, by clamping),
and re-discretizing the bucket-center value `(k + 1/2) / n_buckets` of an
already-obtained bucket `k` reproduces `k`. -/
theorem discretize_state_range_requant (b : ℕ) (hb : 1 ≤ b) :
    (∀ m f e : ℚ,
        (0 ≤ (discretize_state b m f e).1 ∧ (discretize_state b m f e).1 < b) ∧
        (0 ≤ (discretize_state b m f e).2.1 ∧ (discretize_state b m f e).2.1 < b) ∧
        (0 ≤ (discretize_state b m f e).2.2 ∧ (discretize_state b m f e).2.2 < b)) ∧
    (∀ (x : ℚ) (k : ℤ), discretize1 b x = k →
        discretize1 b (((k : ℚ) + 1 / 2) / b) = k) := by
  refine ⟨fun m f e => ?_, fun x k h => discretize1_requant b hb x k h⟩
  exact ⟨⟨discretize1_nonneg b m, discretize1_lt b hb m⟩,
    ⟨discretize1_nonneg b f, discretize1_lt b hb f⟩,
    ⟨discretize1_nonneg b e, discretize1_lt b hb e⟩⟩

/-- Witness for C9 at `n_buckets = 5`. -/
theorem discretize_state_range_requant_witness :
    (∀ m f e : ℚ,
        (0 ≤ (discretize_state 5 m f e).1 ∧ (discretize_state 5 m f e).1 < 5) ∧
        (0 ≤ (discretize_state 5 m f e).2.1 ∧ (discretize_state 5 m f e).2.1 < 5) ∧
        (0 ≤ (discretize_state 5 m f e).2.2 ∧ (discretize_state 5 m f e).2.2 < 5)) ∧
    (∀ (x : ℚ) (k : ℤ), discretize1 5 x = k →
        discretize1 5 (((k : ℚ) + 1 / 2) / 5) = k) := by
  have h := discretize_state_range_requant 5 (by norm_num)
  exact_mod_cast h

/-- Claim C4 is refuted by this concrete run: from the initial student state
(which lies in the unit cube), `respond` with action `offer_revision` and a
noise draw of -0.5 drives `mastery_level` to -9/50, outside `[0,1]`; the
code clamps each delta on one side only. -/
theorem respond_escapes_unit_cube :
    inUnitCube initialStudent ∧
    ¬ inUnitCube (respond initialStudent "offer_revision" (1 / 2)
        (fun _ => -(1 / 2))).1 := by
  constructor
  · refine ⟨by norm_num [initialStudent], by norm_num [initialStudent],
      by norm_num [initialStudent], by norm_num [initialStudent],
      by norm_num [initialStudent], by norm_num [initialStudent]⟩
  · intro h
    have hm : (respond initialStudent "offer_revision" (1 / 2)
        (fun _ => -(1 / 2))).1.mastery_level = -(9 / 50) := by
      simp [respond, initialStudent]
      norm_num
    have h0 := h.1
    rw [hm] at h0
    norm_num at h0

/-- Claim C4, amended: if every Gaussian noise draw fed to one `respond`
call lies in `[-1/50, 1/50]` (deltas are only clamped on the side they push
toward, so unboundedly negative draws can escape the cube), then from any
state in `[0,1]^3` the state after `respond` is still in `[0,1]^3`, for any
action string and any difficulty. -/
theorem respond_preserves_unit_cube (st : StudentState) (hst : inUnitCube st)
    (action : String) (difficulty : ℚ) (noise : ℕ → ℚ)
    (hn : ∀ i, |noise i| ≤ 1 / 50) :
    inUnitCube (respond st action difficulty noise).1 := by
  obtain ⟨m0, m1, f0, f1, e0, e1⟩ := hst
  have hlo : ∀ i, -(1 / 50 : ℚ) ≤ noise i := fun i => (abs_le.mp (hn i)).1
  have hhi : ∀ i, noise i ≤ 1 / 50 := fun i => (abs_le.mp (hn i)).2
  unfold respond
  split_ifs <;>
    refine ⟨?_, ?_, ?_, ?_, ?_, ?_⟩ <;>
    simp only [le_min_iff, min_le_iff, le_max_iff, max_le_iff] <;>
    first
      | linarith [hlo 0, hlo 1, hhi 0, hhi 1]
      | (constructor <;> linarith [hlo 0, hlo 1, hhi 0, hhi 1])

/-- Claim C8: saving a Q-table whose keys are 3-integer tuples and whose
values map action names to floats, then loading it back, reproduces exactly
the same value for every stored state-action pair and introduces no states
that were not saved (the `str((m, f, e))` keys parse back losslessly, entry
by entry). -/
theorem q_table_round_trip (q : List ((ℤ × ℤ × ℤ) × List (String × ℚ))) :
    load_q_table (save_q_table q) = q := by
  unfold load_q_table
  rw [load_save_aux q []]
  rfl

/-- Witness for the amended C4 at the initial state with zero noise. -/
theorem respond_preserves_unit_cube_witness :
    inUnitCube (respond initialStudent "switch_style" (1 / 2) (fun _ => 0)).1 :=
  respond_preserves_unit_cube initialStudent
    (⟨by norm_num [initialStudent], by norm_num [initialStudent],
      by norm_num [initialStudent], by norm_num [initialStudent],
      by norm_num [initialStudent], by norm_num [initialStudent]⟩)
    "switch_style" (1 / 2) (fun _ => 0) (fun i => by norm_num)

/-- Claim C5 is refuted as stated: on a domain containing an action
schema *named* `Start`, `POPPlanner.plan` returns a result whose order
relation (self-loops ignored) is acyclic, yet the linearization has
length 0, not `len(steps) - 2 = 1` — the instantiated step is dropped
from the linearization by name. -/
theorem pop_linearization_iff_name_collision :
    Module3Planning.POPPlanner.plan [Module3Planning.exActStart] [] ["g"] 20 =
      some Module3Planning.exStartResult ∧
    (∀ v, ¬ Relation.TransGen
      (Module3Planning.orel Module3Planning.exStartResult.order) v v) ∧
    Module3Planning.exStartResult.linearization.length ≠
      Module3Planning.exStartResult.steps.length - 2 := by
  refine ⟨by decide, ?_, by decide⟩
  apply Module3Planning.transGen_irrefl_of_rank
    (fun u => if u = 0 then 0 else if u = 2 then 1 else 2)
  intro u v huv
  obtain ⟨hmem, hne⟩ := huv
  have hmem' : (u, v) ∈ [((0 : ℕ), (1 : ℕ)), (2, 1), (0, 2)] := hmem
  simp only [List.mem_cons, List.not_mem_nil, or_false, Prod.mk.injEq] at hmem'
  rcases hmem' with ⟨rfl, rfl⟩ | ⟨rfl, rfl⟩ | ⟨rfl, rfl⟩ <;> decide

/-- Claim C5, amended: provided no action schema is named `Start` or
`Finish`, every result returned by `POPPlanner.plan` satisfies the
claimed equivalence — the order relation (self-loops ignored) is acyclic
iff the linearization has length `len(steps) - 2`, and whenever a cycle
exists the linearization is strictly shorter than `len(steps) - 2`. -/
theorem pop_linearization_length_iff_acyclic
    (actions : List Module3Planning.Act) (initial goal : List String)
    (m : ℕ) (res : Module3Planning.POPResult)
    (hnames : ∀ a ∈ actions, a.name ≠ "Start" ∧ a.name ≠ "Finish")
    (hres : Module3Planning.POPPlanner.plan actions initial goal m =
      some res) :
    ((∀ v, ¬ Relation.TransGen (Module3Planning.orel res.order) v v) ↔
      res.linearization.length = res.steps.length - 2) ∧
    ∀ v, Relation.TransGen (Module3Planning.orel res.order) v v →
      res.linearization.length < res.steps.length - 2 := by
  obtain ⟨st, -, hinv, hsteps, horder, hlin⟩ :=
    Module3Planning.plan_some_inv actions initial goal m res hres
  obtain ⟨hlen, hn0, -, hn1, -, hordE, hndE, -, hact⟩ := hinv
  have hEr : ∀ p ∈ st.order, p.1 < st.steps.length ∧
      p.2 < st.steps.length :=
    fun p hp => ⟨(hordE p hp).1, (hordE p hp).2.1⟩
  have hgood : ∀ p ∈ st.order, p.1 ≠ p.2 → p.1 ≠ 1 ∧ p.2 ≠ 0 :=
    fun p hp => (hordE p hp).2.2
  obtain ⟨-, hTlt, -, -⟩ := Module3Planning.kahnTopo_spec st.order
    st.steps.length hndE hEr
  have hfP : ∀ i ∈ Module3Planning.kahnTopo st.steps.length st.order,
      ((fun i =>
        if (st.steps.getD i Module3Planning.defStep).name = "Start" ∨
           (st.steps.getD i Module3Planning.defStep).name = "Finish"
        then none
        else some (st.steps.getD i Module3Planning.defStep).name) i).isSome =
      (fun i => decide (i ≠ 0) && decide (i ≠ 1)) i := by
    intro i hi
    have hin : i < st.steps.length := hTlt i hi
    by_cases h0 : i = 0
    · subst h0
      simp only [hn0]
      decide
    by_cases h1 : i = 1
    · subst h1
      simp only [hn1]
      decide
    obtain ⟨a, ha, hstep⟩ := hact i (by omega) hin
    simp only [hstep]
    rw [if_neg (by
      rintro (hc | hc)
      · exact (hnames a ha).1 hc
      · exact (hnames a ha).2 hc)]
    rw [decide_eq_true h0, decide_eq_true h1]
    rfl
  have hcount := Module3Planning.filterMap_length_eq_filter _ _
    (Module3Planning.kahnTopo st.steps.length st.order) hfP
  have hmain := Module3Planning.kahnTopo_filter_count st.order
    st.steps.length hndE hEr hlen hgood
  rw [hsteps, horder, hlin, hcount]
  exact hmain

/-- Witness: the amended C5 property instantiated on the one-action
domain `exActPlain` (no name collision), whose returned order is acyclic
and whose linearization has length `3 - 2 = 1`. -/
theorem pop_linearization_length_iff_acyclic_witness :
    (∀ a ∈ [Module3Planning.exActPlain],
      a.name ≠ "Start" ∧ a.name ≠ "Finish") ∧
    Module3Planning.POPPlanner.plan [Module3Planning.exActPlain] [] ["g"] 10 =
      some Module3Planning.exPlainResult ∧
    ((∀ v, ¬ Relation.TransGen
        (Module3Planning.orel Module3Planning.exPlainResult.order) v v) ↔
      Module3Planning.exPlainResult.linearization.length =
        Module3Planning.exPlainResult.steps.length - 2) :=
  ⟨by decide, by decide,
    (pop_linearization_length_iff_acyclic [Module3Planning.exActPlain] []
      ["g"] 10 Module3Planning.exPlainResult (by decide) (by decide)).1⟩

/-- Claim C10: the linearization of `POPPlanner.plan` filters steps by
*name*, not by index — no returned linearization ever contains the
string `"Start"` or `"Finish"`; on the domain whose only action schema
is itself named `Start`, the step instantiated from it (index 2, named
`Start`) remains in `steps`, `order` and `causal_links` but is silently
dropped from the linearization, which comes back empty. -/
theorem pop_linearization_excludes_by_name :
    (∀ (actions : List Module3Planning.Act) (initial goal : List String)
      (m : ℕ) (res : Module3Planning.POPResult),
      Module3Planning.POPPlanner.plan actions initial goal m = some res →
      ∀ nm ∈ res.linearization, nm ≠ "Start" ∧ nm ≠ "Finish") ∧
    (Module3Planning.POPPlanner.plan [Module3Planning.exActStart] [] ["g"] 20 =
      some Module3Planning.exStartResult ∧
    Module3Planning.exStartResult.steps.length = 3 ∧
    (Module3Planning.exStartResult.steps.getD 2
      Module3Planning.defStep).name = "Start" ∧
    Module3Planning.exStartResult.linearization = [] ∧
    (2, "g", 1) ∈ Module3Planning.exStartResult.causal_links ∧
    (0, 2) ∈ Module3Planning.exStartResult.order) := by
  refine ⟨?_, by decide, by decide, by decide, by decide, by decide,
    by decide⟩
  intro actions initial goal m res hres
  exact Module3Planning.plan_linearization_names actions initial goal m
    res hres

end Claims

end SmartTutor
